import Mathlib

/- Verification of the time-tree plugin: a shallow embedding of
   src/src/time-tree-calculator.ts, src/src/front-matter-manager.ts and
   src/src/main.ts.  Documents are drawn from an abstract type of note
   identities; their metadata blocks are modelled as a store mapping each
   document to its numeric front-matter attributes.  The recursive
   traversals of the source have no termination guarantee on cyclic link
   graphs, so they are embedded with an explicit fuel argument: a result
   of `none` means the recursion did not finish within the given fuel,
   and divergence of the source corresponds to `none` for every fuel. -/

namespace TimeTree

/-- Plugin settings, from src/src/settings.ts.  A JavaScript-falsy
    `RootFolderPath` (the empty string) disables the folder scope filter. -/
structure TimeTreeSettings where
  onlyFirstTracker : Bool
  rootNotePath : String
  RootFolderPath : String
  considerSubdirs : Bool
  computeIntervalMinutes : ℚ

/-- The numeric front-matter attributes a document carries.  `none` models
    an absent key; readers treat an absent numeric key as 0, mirroring the
    `frontmatter[property] || 0` reads of front-matter-manager.ts.
    `node_size` is produced by a square root, hence stored as a real. -/
@[ext]
structure FM where
  elapsed : Option ℤ
  descendants : Option ℤ
  node_size : Option ℝ

/-- The attribute store: front matter of every document in the vault. -/
def State (α : Type) : Type := α → FM

/-- The host environment (Obsidian app + simple-time-tracker api) seen by
    the calculator: resolved outgoing links (a `none` entry is a dangling
    link, skipped by every traversal), file paths and parent-folder paths,
    creation times, backlink source paths in iteration order, path lookup
    (`vault.getAbstractFileByPath` combined with the `instanceof TFile`
    check), and the total duration of each tracker on a document. -/
structure Env (α : Type) where
  links : α → List (Option α)
  path : α → String
  parentPath : α → Option String
  ctime : α → ℤ
  backlinks : α → List String
  byPath : String → Option α
  trackers : α → List ℤ

variable {α : Type} [DecidableEq α]

/-- `getProperty file "elapsed"` of front-matter-manager.ts: an absent
    value reads as 0. -/
def getE (s : State α) (p : α) : ℤ := ((s p).elapsed).getD 0

/-- `getProperty file "descendants"`. -/
def getD (s : State α) (p : α) : ℤ := ((s p).descendants).getD 0

/-- `updateProperty` writing `frontmatter.elapsed = v`. -/
def setE (s : State α) (p : α) (v : ℤ) : State α :=
  fun q => if q = p then { s q with elapsed := some v } else s q

/-- `updateProperty` writing `frontmatter.descendants = v`. -/
def setD (s : State α) (p : α) (v : ℤ) : State α :=
  fun q => if q = p then { s q with descendants := some v } else s q

/-- `updateProperty` writing `frontmatter.node_size = v`. -/
def setN (s : State α) (p : α) (v : ℝ) : State α :=
  fun q => if q = p then { s q with node_size := some v } else s q

/-- The outgoing links of a document that resolve to a target
    (`getFirstLinkpathDest` returning non-null), in link order. -/
def resolvedChildren (env : Env α) (p : α) : List α := (env.links p).filterMap id

/-- The root-folder scope test applied to a candidate file in
    `getParentFile` and `gatherDescendantFiles`: no filtering when
    `RootFolderPath` is falsy; path-prefix matching when `considerSubdirs`
    is set; otherwise the direct parent folder must equal the root folder. -/
def scopePass (st : TimeTreeSettings) (env : Env α) (c : α) : Bool :=
  if st.RootFolderPath = "" then true
  else if st.considerSubdirs then (env.path c).startsWith st.RootFolderPath
  else decide (env.parentPath c = some st.RootFolderPath)

/-- `calculateElapsedTime` of time-tree-calculator.ts: total duration of
    the first tracker when `onlyFirstTracker` is set, otherwise the sum of
    all trackers' durations; 0 when the document has no trackers. -/
def calculateElapsedTime (env : Env α) (st : TimeTreeSettings) (p : α) : ℤ :=
  match env.trackers p with
  | [] => 0
  | t :: ts => if st.onlyFirstTracker then t else (t :: ts).sum

/-- The child loop of `calculateRecursiveElapsedTime`: recurse into every
    resolved link, threading the store; dangling links are skipped. -/
def recTimeChildren (recurse : α → State α → Option (State α)) :
    List (Option α) → State α → Option (State α)
  | [], s => some s
  | none :: l, s => recTimeChildren recurse l s
  | some c :: l, s => (recurse c s).bind fun s' => recTimeChildren recurse l s'

/-- `calculateRecursiveElapsedTime`: store the document's own elapsed time
    and recurse into every resolved outgoing link.  Fuel-indexed; the
    source has no cycle guard here. -/
def calculateRecursiveElapsedTime (env : Env α) (st : TimeTreeSettings) :
    ℕ → α → State α → Option (ℤ × State α)
  | 0, _, _ => none
  | f + 1, p, s =>
    let le := calculateElapsedTime env st p
    let s1 := setE s p le
    (recTimeChildren
        (fun c s2 => (calculateRecursiveElapsedTime env st f c s2).map Prod.snd)
        (env.links p) s1).map fun s' => (le, s')

/-- The child loop of `calculateRecursiveElapsedChild`: for each resolved
    child, either recurse fully (`rec = true`) or trust the child's stored
    `elapsed + descendants` (`rec = false`), accumulating the total. -/
def calcChildren (env : Env α) (recurse : α → State α → Option (ℤ × State α))
    (rec : Bool) : List (Option α) → State α → Option (ℤ × State α)
  | [], s => some (0, s)
  | none :: l, s => calcChildren env recurse rec l s
  | some c :: l, s =>
    if rec then
      (recurse c s).bind fun ts =>
        (calcChildren env recurse rec l ts.2).map fun rest =>
          (ts.1 + rest.1, rest.2)
    else
      (calcChildren env recurse rec l s).map fun rest =>
        ((getE s c + getD s c) + rest.1, rest.2)

/-- `calculateRecursiveElapsedChild`: reads the document's own elapsed
    value; a document with an empty link list is a leaf and gets
    `descendants = 0` (and `elapsed = 0` as well, but only when its elapsed
    was already 0); otherwise the resolved children's totals are summed
    into `descendants` and `own + descendants` is returned. -/
def calculateRecursiveElapsedChild (env : Env α) :
    ℕ → Bool → α → State α → Option (ℤ × State α)
  | 0, _, _, _ => none
  | f + 1, rec, p, s =>
    let own := getE s p
    if env.links p = [] then
      let s1 := if own = 0 then setE s p 0 else s
      some (own, setD s1 p 0)
    else
      (calcChildren env (fun c s2 => calculateRecursiveElapsedChild env f true c s2)
          rec (env.links p) s).map fun ts => (own + ts.1, setD ts.2 p ts.1)

/-- The backlink candidates of `getParentFile`: backlink source paths in
    iteration order, resolved through the vault, kept when they pass the
    root-folder scope filter. -/
def candidatesOf (env : Env α) (st : TimeTreeSettings) (file : α) : List α :=
  (env.backlinks file).filterMap fun src =>
    match env.byPath src with
    | some pf => if scopePass st env pf then some pf else none
    | none => none

/-- The candidate loop of `getParentFile`: starting from the first
    candidate, replace the current best only on a strictly earlier
    creation time (so ties keep the candidate seen first). -/
def oldestFold (env : Env α) (b : α) (l : List α) : α :=
  l.foldl (fun best cand => if env.ctime cand < env.ctime best then cand else best) b

/-- `getParentFile`: the scope-filtered backlink source with the earliest
    creation time (strict comparison, so ties keep the earlier candidate);
    `none` when no candidate remains. -/
def getParentFile (env : Env α) (st : TimeTreeSettings) (file : α) : Option α :=
  match candidatesOf env st file with
  | [] => none
  | c :: cs => some (oldestFold env c (c :: cs))

/-- `communicateAscendants`: recompute the canonical parent's descendants
    non-recursively and walk up; stops when no parent resolves.  The
    non-recursive recompute needs no fuel for its (absent) child recursion,
    so fuel 1 is passed to it; the upward walk itself is fuel-indexed
    because the source has no cycle guard. -/
def communicateAscendants (env : Env α) (st : TimeTreeSettings) :
    ℕ → α → State α → Option (State α)
  | 0, _, _ => none
  | f + 1, file, s =>
    match getParentFile env st file with
    | none => some s
    | some parent =>
      (calculateRecursiveElapsedChild env 1 false parent s).bind fun ts =>
        communicateAscendants env st f parent ts.2

/-- The child loop of `gatherDescendantFiles`: each resolved, in-scope
    child is pushed unconditionally, then its descendants (cut off at
    already-visited documents) are appended. -/
def gatherChildren (env : Env α) (st : TimeTreeSettings)
    (recurse : α → Finset String → Option (List α × Finset String)) :
    List (Option α) → Finset String → Option (List α × Finset String)
  | [], v => some ([], v)
  | none :: l, v => gatherChildren env st recurse l v
  | some c :: l, v =>
    if scopePass st env c then
      (recurse c v).bind fun dv =>
        (gatherChildren env st recurse l dv.2).map fun rest =>
          (c :: (dv.1 ++ rest.1), rest.2)
    else gatherChildren env st recurse l v

/-- `gatherDescendantFiles`: depth-first collection of descendants with a
    visited set keyed by file path; an already-visited document contributes
    no further subtree (but note the push in `gatherChildren` happens
    before this check runs on the child). -/
def gatherDescendantFiles (env : Env α) (st : TimeTreeSettings) :
    ℕ → α → Finset String → Option (List α × Finset String)
  | 0, _, _ => none
  | f + 1, file, v =>
    if env.path file ∈ v then some ([], v)
    else
      gatherChildren env st (gatherDescendantFiles env st f) (env.links file)
        (insert (env.path file) v)

/-- `acc = elapsed + descendants` read for a document in
    `updateNodeSizeFromFile` (absent attributes read as 0). -/
def accOf (s : State α) (q : α) : ℤ := getE s q + getD s q

/-- `Math.min(...accNumbers)` over the collected accumulated values (the
    list is never empty: it always contains the root's value). -/
def minAccOf (s : State α) (files : List α) : ℤ :=
  (files.map (accOf s)).foldl min ((files.map (accOf s)).headD 0)

/-- `Math.max(...accNumbers)`. -/
def maxAccOf (s : State α) (files : List α) : ℤ :=
  (files.map (accOf s)).foldl max ((files.map (accOf s)).headD 0)

def min_d : ℚ := 6
def max_d : ℚ := 100
def A_min : ℚ := min_d * min_d
def A_max : ℚ := max_d * max_d

/-- The area-linear interpolation of `updateNodeSizeFromFile`:
    `A_min + ((acc - minAcc) / (maxAcc - minAcc)) * (A_max - A_min)`. -/
def areaOf (minAcc maxAcc acc : ℤ) : ℚ :=
  A_min + (((acc - minAcc : ℤ) : ℚ) / ((maxAcc - minAcc : ℤ) : ℚ)) * (A_max - A_min)

/-- The node size assigned to a document: in the degenerate case
    (`maxAcc == minAcc`) the minimum diameter for `acc == 0` and the
    maximum otherwise; in the general case the square root of the
    linearly interpolated disc area. -/
noncomputable def node_sizeOf (minAcc maxAcc acc : ℤ) : ℝ :=
  if maxAcc = minAcc then (if acc = 0 then (min_d : ℝ) else (max_d : ℝ))
  else Real.sqrt ((areaOf minAcc maxAcc acc : ℚ) : ℝ)

/-- The write loop of `updateNodeSizeFromFile`: every collected document
    receives its node size; the acc values were all read before any write,
    from the incoming store `s`. -/
noncomputable def applySizes (files : List α) (s : State α) : State α :=
  files.foldl
    (fun st' q => setN st' q (node_sizeOf (minAccOf s files) (maxAccOf s files) (accOf s q)))
    s

/-- `updateNodeSizeFromFile`: gather the root and all its collected
    descendants, then assign every one its interpolated node size. -/
noncomputable def updateNodeSizeFromFile (env : Env α) (st : TimeTreeSettings)
    (fuel : ℕ) (file : α) (s : State α) : Option (State α) :=
  (gatherDescendantFiles env st fuel file ∅).map fun g =>
    applySizes (file :: g.1) s

/-- The multiset of documents visited by the fuelled recursive passes
    (`calculateRecursiveElapsedTime` and `calculateRecursiveElapsedChild`
    with `recursive = true`): the document itself followed by the visit
    lists of its resolved children at one less fuel.  There is no visited
    set, so a document reachable along several paths occurs several
    times. -/
def visL (env : Env α) : ℕ → α → List α
  | 0, _ => []
  | f + 1, p => p :: (resolvedChildren env p).flatMap (visL env f)

/-- Sufficient-fuel predicate for the unguarded downward recursions: the
    fuel covers every link path from the document.  Both recursive passes
    succeed at fuel `f` exactly when `walkOk f` holds. -/
def walkOk (env : Env α) : ℕ → α → Prop
  | 0, _ => False
  | f + 1, p => ∀ c ∈ resolvedChildren env p, walkOk env f c

/-- The value `calculateRecursiveElapsedChild` accumulates over a link
    list, expressed over a fixed elapsed assignment `E` and a fixed
    per-child descendants value `pd`: each resolved child `c` contributes
    `E c + pd c`, dangling links contribute nothing. -/
def childSum (E : α → ℤ) (pd : α → Option ℤ) : List (Option α) → Option ℤ
  | [] => some 0
  | none :: l => childSum E pd l
  | some c :: l =>
    (pd c).bind fun d => (childSum E pd l).map fun rest => (E c + d) + rest

/-- The descendants value the full recursive pass stores for a document,
    as a pure function of the link graph and the elapsed assignment `E`
    (which the pass leaves unchanged): 0 for a leaf, otherwise the sum of
    `E c + pureDesc c` over the resolved children. -/
def pureDesc (env : Env α) (E : α → ℤ) : ℕ → α → Option ℤ
  | 0, _ => none
  | f + 1, p =>
    if env.links p = [] then some 0
    else childSum E (pureDesc env E f) (env.links p)

/-- The elapsed assignment read off a store (with absent keys as 0). -/
def elapOf (s : State α) : α → ℤ := fun q => getE s q

/-- Full characterization of a successful run of the recursive
    descendants pass `calculateRecursiveElapsedChild _ f true p`:
    it preserves every elapsed value and every node size, touches only
    visited documents, rewrites the elapsed attribute only for a visited
    leaf whose elapsed already read 0 (writing the explicit 0), stores
    `pureDesc` for every visited document, and returns the document's own
    elapsed plus its stored descendants value. -/
def CharREC (env : Env α) (f : ℕ) (p : α) (s : State α) (r : ℤ) (s' : State α) : Prop :=
  (∀ q, getE s' q = getE s q) ∧
  (∀ q, (s' q).node_size = (s q).node_size) ∧
  (∀ q, q ∉ visL env f p → s' q = s q) ∧
  (∀ q, (s' q).elapsed =
    if q ∈ visL env f p ∧ env.links q = [] ∧ getE s q = 0 then some 0
    else (s q).elapsed) ∧
  (∀ q ∈ visL env f p,
    ∃ v, pureDesc env (elapOf s) f q = some v ∧ (s' q).descendants = some v) ∧
  (∃ d, pureDesc env (elapOf s) f p = some d ∧ r = getE s p + d)

/-- Full characterization of a successful run of the recursive elapsed
    pass `calculateRecursiveElapsedTime _ _ f p`: every visited document's
    elapsed attribute becomes its tracker total, nothing else changes, and
    the pass returns the argument document's tracker total. -/
def CharRecTime (env : Env α) (st : TimeTreeSettings) (f : ℕ) (p : α)
    (s : State α) (le : ℤ) (s' : State α) : Prop :=
  le = calculateElapsedTime env st p ∧
  (∀ q, (s' q).elapsed =
    if q ∈ visL env f p then some (calculateElapsedTime env st q) else (s q).elapsed) ∧
  (∀ q, (s' q).descendants = (s q).descendants) ∧
  (∀ q, (s' q).node_size = (s q).node_size)

/-- The resolved, in-scope entries of a link list, in order. -/
def scopedList (env : Env α) (st : TimeTreeSettings) (l : List (Option α)) : List α :=
  l.filterMap fun o => o.bind fun c => if scopePass st env c then some c else none

/-- The resolved, in-scope children of a document: exactly the documents
    `gatherDescendantFiles` pushes once each while expanding it. -/
def scopedResolved (env : Env α) (st : TimeTreeSettings) (p : α) : List α :=
  scopedList env st (env.links p)

/-- One resolved-link step of the document graph. -/
def edgeStep (env : Env α) (p c : α) : Prop := c ∈ resolvedChildren env p

/-- Link-graph reachability (reflexive-transitive closure of resolved
    links). -/
def ReachesD (env : Env α) : α → α → Prop := Relation.ReflTransGen (edgeStep env)

/-- Acyclicity of the subgraph reachable from `root`: no document
    reachable from `root` lies on a resolved-link cycle. -/
def AcyclicFrom (env : Env α) (root : α) : Prop :=
  ∀ p, ReachesD env root p → ∀ c, edgeStep env p c → ¬ ReachesD env c p

/-- The canonical-parent chain from a document is finite with length `n`:
    after exactly `n` parent hops, `getParentFile` resolves no parent. -/
def parentChainEnds (env : Env α) (st : TimeTreeSettings) : ℕ → α → Prop
  | 0, doc => getParentFile env st doc = none
  | n + 1, doc => ∃ p, getParentFile env st doc = some p ∧ parentChainEnds env st n p

/-- `computeTimeTree` of src/src/main.ts: a no-op (with a notice) when the
    root note path is unset or does not resolve; otherwise the recursive
    elapsed pass, the recursive descendants pass and the node-size pass,
    in that order. -/
noncomputable def computeTimeTree (env : Env α) (st : TimeTreeSettings)
    (fuel : ℕ) (s : State α) : Option (State α) :=
  if st.rootNotePath = "" then some s
  else
    match env.byPath st.rootNotePath with
    | none => some s
    | some root =>
      (calculateRecursiveElapsedTime env st fuel root s).bind fun ls =>
        (calculateRecursiveElapsedChild env fuel true root ls.2).bind fun ts =>
          updateNodeSizeFromFile env st fuel root ts.2

/- Character-level model of front-matter-manager.ts.  Document content is
   a list of characters.  The front-matter regex of the source (anchored
   header line of three dashes, lazy capture, newline-three-dashes
   terminator) is modelled by `yamlMatch`: the content must start with the
   header line `---` + newline, and the lazy capture ends at the first
   later occurrence of the marker newline + `---`.  YAML parsing and
   serialization are external collaborators, abstracted as the parameters
   `parseY` (returning `none` exactly when `YAML.parse` throws; the
   or-else-empty-map fallback of the source is folded into it) and
   `strY`. -/

/-- The four characters of the opening line `---\n` of a metadata block. -/
def yamlHeader : List Char := ['-', '-', '-', '\n']

/-- The four characters `\n---` terminating the lazy capture. -/
def yamlMarker : List Char := ['\n', '-', '-', '-']

/-- Does `p` occur at the head of `l`?  (List-prefix test.) -/
def headMatches : List Char → List Char → Bool
  | [], _ => true
  | _ :: _, [] => false
  | a :: as, b :: bs => a = b && headMatches as bs

/-- Scan for the first occurrence of `yamlMarker`, returning the text
    before it and the text after it (the marker itself removed). -/
def findMarker : List Char → Option (List Char × List Char)
  | [] => none
  | c :: cs =>
    if headMatches yamlMarker (c :: cs) then some ([], (c :: cs).drop 4)
    else (findMarker cs).map fun pr => (c :: pr.1, pr.2)

/-- The front-matter regex match: `some (block, rest)` when the content is
    `---\n` ++ block ++ `\n---` ++ rest with block containing no earlier
    `\n---`; `none` when the content has no front-matter block. -/
def yamlMatch (content : List Char) : Option (List Char × List Char) :=
  if headMatches yamlHeader content then findMarker (content.drop 4) else none

/-- `updateProperty` of front-matter-manager.ts over an abstract attribute
    map type `A`: parse the matched block (`none` from `parseY` models a
    `YAML.parse` throw, caught with a failure notice and **no write**, the
    overall result `none`); apply the updater; re-serialize; reattach the
    rest of the document, inserting one newline when the rest does not
    already start with one.  Without a match the updater runs on the empty
    map `emptyFM` and a fresh block is prepended. -/
def updateProperty {A : Type} (parseY : List Char → Option A)
    (strY : A → List Char) (emptyFM : A) (updater : A → A)
    (content : List Char) : Option (List Char) :=
  match yamlMatch content with
  | some br =>
    match parseY br.1 with
    | none => none
    | some fm =>
      let newBlock := yamlHeader ++ strY (updater fm) ++ ['-', '-', '-']
      some (newBlock ++ (if br.2.head? = some '\n' then br.2 else '\n' :: br.2))
  | none =>
    let newBlock := yamlHeader ++ strY (updater emptyFM) ++ ['-', '-', '-']
    some (newBlock ++ '\n' :: content)

/-- The document content after an `updateProperty` call: `vault.modify` is
    reached only on success, so a failed update leaves the content as it
    was. -/
def updatePropertyRun {A : Type} (parseY : List Char → Option A)
    (strY : A → List Char) (emptyFM : A) (updater : A → A)
    (content : List Char) : List Char :=
  (updateProperty parseY strY emptyFM updater content).getD content

/-- `getProperty` of front-matter-manager.ts at the character level: any
    failure (no block, unparseable block, absent key) reads as 0, the key
    lookup `getK` abstracting `frontmatter[property] || 0`. -/
def getPropertyOf {A K : Type} (parseY : List Char → Option A)
    (getK : A → K → Option ℚ) (content : List Char) (k : K) : ℚ :=
  match yamlMatch content with
  | some br =>
    match parseY br.1 with
    | some fm => (getK fm k).getD 0
    | none => 0
  | none => 0

/- Concrete environments used to evaluate the definitions on small
   inputs. -/

/-- Default settings (src/src/settings.ts) with the folder scope disabled
    (`RootFolderPath` falsy, as when the user clears it). -/
def stDefault : TimeTreeSettings :=
  { onlyFirstTracker := false
    rootNotePath := ""
    RootFolderPath := ""
    considerSubdirs := false
    computeIntervalMinutes := 0 }

/-- A document with no stored attributes. -/
def fm0 : FM := { elapsed := none, descendants := none, node_size := none }

/-- A vault in which no document has stored attributes. -/
def s0 {α : Type} : State α := fun _ => fm0

/-- Two documents: document 0 links to document 1, a leaf. -/
def pairEnv : Env (Fin 2) :=
  { links := fun i => if i = 0 then [some 1] else []
    path := fun i => if i = 0 then "a" else "b"
    parentPath := fun _ => none
    ctime := fun _ => 0
    backlinks := fun _ => []
    byPath := fun _ => none
    trackers := fun _ => [] }

/-- Store for `pairEnv`: elapsed 1 on the root, elapsed 3 on the leaf. -/
def pairS : State (Fin 2) := fun i =>
  if i = 0 then { elapsed := some 1, descendants := none, node_size := none }
  else { elapsed := some 3, descendants := none, node_size := none }

/-- Store for `pairEnv` with descendants already present: acc 10 on the
    root, acc 2 on the leaf. -/
def pairS4 : State (Fin 2) := fun i =>
  if i = 0 then { elapsed := some 10, descendants := some 0, node_size := none }
  else { elapsed := some 2, descendants := some 0, node_size := none }

/-- A diamond: 0 links to 1 and 2, both of which link to 3 (a leaf), so 3
    is reachable along two distinct link paths. -/
def diamondEnv : Env (Fin 4) :=
  { links := fun i =>
      if i = 0 then [some 1, some 2]
      else if i = 1 then [some 3]
      else if i = 2 then [some 3]
      else []
    path := fun i =>
      if i = 0 then "r" else if i = 1 then "a" else if i = 2 then "b" else "c"
    parentPath := fun _ => none
    ctime := fun _ => 0
    backlinks := fun _ => []
    byPath := fun _ => none
    trackers := fun _ => [] }

/-- Store for `diamondEnv`: elapsed 1 on the shared leaf 3, elapsed 0
    elsewhere. -/
def diamondS : State (Fin 4) := fun i =>
  if i = 3 then { elapsed := some 1, descendants := none, node_size := none }
  else { elapsed := some 0, descendants := none, node_size := none }

/-- A two-document link cycle: `false` links to `true` and back. -/
def cycLinksEnv : Env Bool :=
  { links := fun b => if b then [some false] else [some true]
    path := fun b => if b then "B" else "A"
    parentPath := fun _ => none
    ctime := fun _ => 0
    backlinks := fun _ => []
    byPath := fun _ => none
    trackers := fun _ => [] }

/-- A two-document backlink cycle: each document's only backlink source is
    the other, so `getParentFile` makes each the canonical parent of the
    other. -/
def cycParentEnv : Env Bool :=
  { links := fun _ => []
    path := fun b => if b then "B" else "A"
    parentPath := fun _ => none
    ctime := fun _ => 0
    backlinks := fun b => if b then ["A"] else ["B"]
    byPath := fun s => if s = "A" then some false else if s = "B" then some true else none
    trackers := fun _ => [] }

/-- A single document with no links and no backlinks, registered in the
    vault under the path "r". -/
def soloEnv : Env Unit :=
  { links := fun _ => []
    path := fun _ => "r"
    parentPath := fun _ => none
    ctime := fun _ => 0
    backlinks := fun _ => []
    byPath := fun s => if s = "r" then some () else none
    trackers := fun _ => [] }

/-- Settings pointing the full recompute at the root note "r". -/
def soloSt : TimeTreeSettings :=
  { onlyFirstTracker := false
    rootNotePath := "r"
    RootFolderPath := ""
    considerSubdirs := false
    computeIntervalMinutes := 0 }

/-- Backlink sources of document 0 resolve to documents 1, 2, 3 with
    creation times 5, 2, 2: the minimum 2 is attained twice, candidate 2
    being encountered before candidate 3. -/
def tieEnv : Env (Fin 4) :=
  { links := fun _ => []
    path := fun i =>
      if i = 0 then "z" else if i = 1 then "p" else if i = 2 then "q" else "r"
    parentPath := fun _ => none
    ctime := fun i => if i = 1 then 5 else if i = 2 then 2 else if i = 3 then 2 else 0
    backlinks := fun i => if i = 0 then ["p", "q", "r"] else []
    byPath := fun s =>
      if s = "p" then some 1 else if s = "q" then some 2
      else if s = "r" then some 3 else none
    trackers := fun _ => [] }

/-- Content whose metadata block is followed directly by body text with no
    separating newline. -/
def noNLContent : List Char := "---\na: 1\n---body".toList

/-- Content whose metadata block is followed by a newline and body text. -/
def nlContent : List Char := "---\na: 1\n---\nbody".toList

/-- Content with a metadata block "x" (to be rejected by a failing
    parser). -/
def badContent : List Char := "---\nx\n---\nbody".toList

/-- An identity serializer pair used to instantiate the abstract YAML
    collaborator: the attribute map is the raw block text, parsing always
    succeeds and serializing appends the trailing newline the source
    regex strips. -/
def rawParse : List Char → Option (List Char) := some

def rawStr : List Char → List Char := fun a => a ++ ['\n']

/- Basic facts about the store writers. -/

theorem setE_apply (s : State α) (p : α) (v : ℤ) (q : α) :
    setE s p v q = if q = p then { s q with elapsed := some v } else s q := rfl

theorem setD_apply (s : State α) (p : α) (v : ℤ) (q : α) :
    setD s p v q = if q = p then { s q with descendants := some v } else s q := rfl

theorem setN_apply (s : State α) (p : α) (v : ℝ) (q : α) :
    setN s p v q = if q = p then { s q with node_size := some v } else s q := rfl

@[simp] theorem elapsed_setE (s : State α) (p : α) (v : ℤ) (q : α) :
    (setE s p v q).elapsed = if q = p then some v else (s q).elapsed := by
  rw [setE_apply]; split <;> rfl

@[simp] theorem descendants_setE (s : State α) (p : α) (v : ℤ) (q : α) :
    (setE s p v q).descendants = (s q).descendants := by
  rw [setE_apply]; split <;> rfl

@[simp] theorem node_size_setE (s : State α) (p : α) (v : ℤ) (q : α) :
    (setE s p v q).node_size = (s q).node_size := by
  rw [setE_apply]; split <;> rfl

@[simp] theorem elapsed_setD (s : State α) (p : α) (v : ℤ) (q : α) :
    (setD s p v q).elapsed = (s q).elapsed := by
  rw [setD_apply]; split <;> rfl

@[simp] theorem descendants_setD (s : State α) (p : α) (v : ℤ) (q : α) :
    (setD s p v q).descendants = if q = p then some v else (s q).descendants := by
  rw [setD_apply]; split <;> rfl

@[simp] theorem node_size_setD (s : State α) (p : α) (v : ℤ) (q : α) :
    (setD s p v q).node_size = (s q).node_size := by
  rw [setD_apply]; split <;> rfl

@[simp] theorem elapsed_setN (s : State α) (p : α) (v : ℝ) (q : α) :
    (setN s p v q).elapsed = (s q).elapsed := by
  rw [setN_apply]; split <;> rfl

@[simp] theorem descendants_setN (s : State α) (p : α) (v : ℝ) (q : α) :
    (setN s p v q).descendants = (s q).descendants := by
  rw [setN_apply]; split <;> rfl

@[simp] theorem node_size_setN (s : State α) (p : α) (v : ℝ) (q : α) :
    (setN s p v q).node_size = if q = p then some v else (s q).node_size := by
  rw [setN_apply]; split <;> rfl

@[simp] theorem getE_setE (s : State α) (p : α) (v : ℤ) (q : α) :
    getE (setE s p v) q = if q = p then v else getE s q := by
  unfold getE; rw [elapsed_setE]; split <;> rfl

@[simp] theorem getE_setD (s : State α) (p : α) (v : ℤ) (q : α) :
    getE (setD s p v) q = getE s q := by
  unfold getE; rw [elapsed_setD]

@[simp] theorem getE_setN (s : State α) (p : α) (v : ℝ) (q : α) :
    getE (setN s p v) q = getE s q := by
  unfold getE; rw [elapsed_setN]

@[simp] theorem getD_setD (s : State α) (p : α) (v : ℤ) (q : α) :
    getD (setD s p v) q = if q = p then v else getD s q := by
  unfold getD; rw [descendants_setD]; split <;> rfl

@[simp] theorem getD_setE (s : State α) (p : α) (v : ℤ) (q : α) :
    getD (setE s p v) q = getD s q := by
  unfold getD; rw [descendants_setE]

@[simp] theorem getD_setN (s : State α) (p : α) (v : ℝ) (q : α) :
    getD (setN s p v) q = getD s q := by
  unfold getD; rw [descendants_setN]

/- Fuel monotonicity of the sufficient-fuel predicate and of the pure
   descendants function. -/

theorem walkOk_mono {env : Env α} :
    ∀ {f f' : ℕ}, f ≤ f' → ∀ {p : α}, walkOk env f p → walkOk env f' p := by
  intro f
  induction f with
  | zero => intro f' _ p h; exact h.elim
  | succ g ih =>
    intro f' hle p h
    match f', hle with
    | g' + 1, hle =>
      intro c hc
      exact ih (Nat.succ_le_succ_iff.mp hle) (h c hc)

theorem childSum_congr {E : α → ℤ} {pd pd' : α → Option ℤ}
    (h : ∀ c v, pd c = some v → pd' c = some v) :
    ∀ {l : List (Option α)} {v : ℤ}, childSum E pd l = some v → childSum E pd' l = some v := by
  intro l
  induction l with
  | nil => intro v hv; exact hv
  | cons o l ih =>
    intro v hv
    match o with
    | none => exact ih hv
    | some c =>
      simp only [childSum] at hv ⊢
      rcases Option.bind_eq_some.mp hv with ⟨d, hd, hrest⟩
      rcases Option.map_eq_some'.mp hrest with ⟨rest, hrest', hval⟩
      rw [h c d hd]
      simp only [Option.some_bind, ih hrest', Option.map_some', hval]

theorem pureDesc_mono {env : Env α} {E : α → ℤ} :
    ∀ {f f' : ℕ}, f ≤ f' → ∀ {p : α} {v : ℤ},
      pureDesc env E f p = some v → pureDesc env E f' p = some v := by
  intro f
  induction f with
  | zero => intro f' _ p v h; exact absurd h (by simp [pureDesc])
  | succ g ih =>
    intro f' hle p v h
    match f', hle with
    | g' + 1, hle =>
      simp only [pureDesc] at h ⊢
      split at h
      case isTrue hl => rw [if_pos hl]; exact h
      case isFalse hl =>
        rw [if_neg hl]
        exact childSum_congr (fun c w hw => ih (Nat.succ_le_succ_iff.mp hle) hw) h

/- Unfolding equations for the fuelled recursions. -/

theorem filterMap_id_cons_some (c : α) (l : List (Option α)) :
    (some c :: l).filterMap id = c :: l.filterMap id := rfl

theorem filterMap_id_cons_none (l : List (Option α)) :
    (none :: l).filterMap id = l.filterMap id := rfl

theorem optIsSome_map {β γ : Type} (f : β → γ) (x : Option β) :
    (x.map f).isSome = x.isSome := by cases x <;> rfl

theorem calcChildren_nil (env : Env α) (recurse) (rec : Bool) (s : State α) :
    calcChildren env recurse rec [] s = some (0, s) := rfl

theorem calcChildren_cons_none (env : Env α) (recurse) (rec : Bool)
    (l : List (Option α)) (s : State α) :
    calcChildren env recurse rec (none :: l) s = calcChildren env recurse rec l s := rfl

theorem calcChildren_cons_some_true (env : Env α) (recurse) (c : α)
    (l : List (Option α)) (s : State α) :
    calcChildren env recurse true (some c :: l) s
      = (recurse c s).bind fun ts =>
          (calcChildren env recurse true l ts.2).map fun rest =>
            (ts.1 + rest.1, rest.2) := rfl

theorem calcChildren_cons_some_false (env : Env α) (recurse) (c : α)
    (l : List (Option α)) (s : State α) :
    calcChildren env recurse false (some c :: l) s
      = (calcChildren env recurse false l s).map fun rest =>
          ((getE s c + getD s c) + rest.1, rest.2) := rfl

theorem calcREC_zero (env : Env α) (rec : Bool) (p : α) (s : State α) :
    calculateRecursiveElapsedChild env 0 rec p s = none := rfl

theorem calcREC_succ (env : Env α) (f : ℕ) (rec : Bool) (p : α) (s : State α) :
    calculateRecursiveElapsedChild env (f + 1) rec p s
      = if env.links p = [] then
          some (getE s p, setD (if getE s p = 0 then setE s p 0 else s) p 0)
        else
          (calcChildren env (fun c s2 => calculateRecursiveElapsedChild env f true c s2)
              rec (env.links p) s).map fun ts => (getE s p + ts.1, setD ts.2 p ts.1) := rfl

theorem recTimeChildren_nil (recurse : α → State α → Option (State α)) (s : State α) :
    recTimeChildren recurse [] s = some s := rfl

theorem recTimeChildren_cons_none (recurse : α → State α → Option (State α))
    (l : List (Option α)) (s : State α) :
    recTimeChildren recurse (none :: l) s = recTimeChildren recurse l s := rfl

theorem recTimeChildren_cons_some (recurse : α → State α → Option (State α)) (c : α)
    (l : List (Option α)) (s : State α) :
    recTimeChildren recurse (some c :: l) s
      = (recurse c s).bind fun s' => recTimeChildren recurse l s' := rfl

theorem recTime_zero (env : Env α) (st : TimeTreeSettings) (p : α) (s : State α) :
    calculateRecursiveElapsedTime env st 0 p s = none := rfl

theorem recTime_succ (env : Env α) (st : TimeTreeSettings) (f : ℕ) (p : α) (s : State α) :
    calculateRecursiveElapsedTime env st (f + 1) p s
      = (recTimeChildren
            (fun c s2 => (calculateRecursiveElapsedTime env st f c s2).map Prod.snd)
            (env.links p) (setE s p (calculateElapsedTime env st p))).map
          fun s' => (calculateElapsedTime env st p, s') := rfl

/- The non-recursive child pass always succeeds: with `recursive = false`
   the loop body never recurses. -/

theorem calcChildren_false_isSome (env : Env α) (recurse) :
    ∀ (l : List (Option α)) (s : State α),
      (calcChildren env recurse false l s).isSome = true := by
  intro l
  induction l with
  | nil => intro s; rfl
  | cons o l ih =>
    intro s
    match o with
    | none => rw [calcChildren_cons_none]; exact ih s
    | some c => rw [calcChildren_cons_some_false, optIsSome_map]; exact ih s

theorem calcREC_false_isSome (env : Env α) (f : ℕ) (p : α) (s : State α) :
    (calculateRecursiveElapsedChild env (f + 1) false p s).isSome = true := by
  rw [calcREC_succ]
  by_cases hl : env.links p = []
  · rw [if_pos hl]; rfl
  · rw [if_neg hl, optIsSome_map]
    exact calcChildren_false_isSome env _ (env.links p) s

/- Success of the unguarded downward recursions is exactly the
   sufficient-fuel predicate `walkOk`; in particular it does not depend on
   the store. -/

theorem calcChildren_true_isSome_iff (env : Env α) (f : ℕ)
    (IH : ∀ (c : α) (s : State α),
      (calculateRecursiveElapsedChild env f true c s).isSome = true ↔ walkOk env f c) :
    ∀ (l : List (Option α)) (s : State α),
      (calcChildren env (fun c s2 => calculateRecursiveElapsedChild env f true c s2)
          true l s).isSome = true
        ↔ ∀ c ∈ l.filterMap id, walkOk env f c := by
  intro l
  induction l with
  | nil =>
    intro s
    simp [calcChildren_nil]
  | cons o l ih =>
    intro s
    match o with
    | none =>
      rw [calcChildren_cons_none]
      simpa using ih s
    | some c =>
      rw [calcChildren_cons_some_true]
      cases hc : calculateRecursiveElapsedChild env f true c s with
      | none =>
        have hw : ¬ walkOk env f c := by
          rw [← IH c s, hc]; simp
        simp only [Option.none_bind, filterMap_id_cons_some, List.forall_mem_cons]
        constructor
        · intro h; cases h
        · intro h; exact absurd h.1 hw
      | some ts =>
        have hw : walkOk env f c := by rw [← IH c s, hc]; rfl
        simp only [Option.some_bind, optIsSome_map, filterMap_id_cons_some,
          List.forall_mem_cons]
        rw [ih ts.2]
        exact ⟨fun h => ⟨hw, h⟩, fun h => h.2⟩

theorem calcREC_isSome_iff (env : Env α) :
    ∀ (f : ℕ) (p : α) (s : State α),
      (calculateRecursiveElapsedChild env f true p s).isSome = true ↔ walkOk env f p := by
  intro f
  induction f with
  | zero =>
    intro p s
    rw [calcREC_zero]
    simp [walkOk]
  | succ g ih =>
    intro p s
    rw [calcREC_succ]
    by_cases hl : env.links p = []
    · rw [if_pos hl]
      simp only [Option.isSome_some, true_iff]
      intro c hc
      rw [resolvedChildren, hl] at hc
      cases hc
    · rw [if_neg hl, optIsSome_map]
      exact calcChildren_true_isSome_iff env g ih (env.links p) s

theorem recTimeChildren_isSome_iff (env : Env α) (st : TimeTreeSettings) (f : ℕ)
    (IH : ∀ (c : α) (s : State α),
      (calculateRecursiveElapsedTime env st f c s).isSome = true ↔ walkOk env f c) :
    ∀ (l : List (Option α)) (s : State α),
      (recTimeChildren
          (fun c s2 => (calculateRecursiveElapsedTime env st f c s2).map Prod.snd)
          l s).isSome = true
        ↔ ∀ c ∈ l.filterMap id, walkOk env f c := by
  intro l
  induction l with
  | nil =>
    intro s
    simp [recTimeChildren_nil]
  | cons o l ih =>
    intro s
    match o with
    | none =>
      rw [recTimeChildren_cons_none]
      simpa using ih s
    | some c =>
      rw [recTimeChildren_cons_some]
      cases hc : calculateRecursiveElapsedTime env st f c s with
      | none =>
        have hw : ¬ walkOk env f c := by
          rw [← IH c s, hc]; simp
        simp only [Option.map_none', Option.none_bind, filterMap_id_cons_some,
          List.forall_mem_cons]
        constructor
        · intro h; cases h
        · intro h; exact absurd h.1 hw
      | some ts =>
        have hw : walkOk env f c := by rw [← IH c s, hc]; rfl
        simp only [Option.map_some', Option.some_bind, filterMap_id_cons_some,
          List.forall_mem_cons]
        rw [ih ts.2]
        exact ⟨fun h => ⟨hw, h⟩, fun h => h.2⟩

theorem recTime_isSome_iff (env : Env α) (st : TimeTreeSettings) :
    ∀ (f : ℕ) (p : α) (s : State α),
      (calculateRecursiveElapsedTime env st f p s).isSome = true ↔ walkOk env f p := by
  intro f
  induction f with
  | zero =>
    intro p s
    rw [recTime_zero]
    simp [walkOk]
  | succ g ih =>
    intro p s
    rw [recTime_succ, optIsSome_map]
    exact recTimeChildren_isSome_iff env st g ih (env.links p) _

/- Characterization of the recursive descendants pass. -/

theorem visL_zero (env : Env α) (p : α) : visL env 0 p = [] := rfl

theorem visL_succ (env : Env α) (f : ℕ) (p : α) :
    visL env (f + 1) p = p :: (resolvedChildren env p).flatMap (visL env f) := rfl

theorem pureDesc_zero (env : Env α) (E : α → ℤ) (p : α) :
    pureDesc env E 0 p = none := rfl

theorem pureDesc_succ (env : Env α) (E : α → ℤ) (f : ℕ) (p : α) :
    pureDesc env E (f + 1) p
      = if env.links p = [] then some 0
        else childSum E (pureDesc env E f) (env.links p) := rfl

theorem childSum_cons_some (E : α → ℤ) (pd : α → Option ℤ) (c : α) (l : List (Option α)) :
    childSum E pd (some c :: l)
      = (pd c).bind fun d => (childSum E pd l).map fun rest => (E c + d) + rest := rfl

theorem calcChildren_char (env : Env α) (f : ℕ)
    (IH : ∀ (p : α) (s : State α) (r : ℤ) (s' : State α),
      calculateRecursiveElapsedChild env f true p s = some (r, s') → CharREC env f p s r s') :
    ∀ (l : List (Option α)) (s : State α) (t : ℤ) (s' : State α),
      calcChildren env (fun c s2 => calculateRecursiveElapsedChild env f true c s2)
          true l s = some (t, s') →
      (∀ q, getE s' q = getE s q) ∧
      (∀ q, (s' q).node_size = (s q).node_size) ∧
      (∀ q, q ∉ (l.filterMap id).flatMap (visL env f) → s' q = s q) ∧
      (∀ q, (s' q).elapsed =
        if q ∈ (l.filterMap id).flatMap (visL env f) ∧ env.links q = [] ∧ getE s q = 0
        then some 0 else (s q).elapsed) ∧
      (∀ q ∈ (l.filterMap id).flatMap (visL env f),
        ∃ v, pureDesc env (elapOf s) f q = some v ∧ (s' q).descendants = some v) ∧
      childSum (elapOf s) (pureDesc env (elapOf s) f) l = some t := by
  intro l
  induction l with
  | nil =>
    intro s t s' h
    rw [calcChildren_nil] at h
    injection h with h'
    injection h' with ht hs
    subst ht; subst hs
    refine ⟨fun q => rfl, fun q => rfl, fun q _ => rfl, fun q => ?_, fun q hq => ?_, rfl⟩
    · simp
    · simp at hq
  | cons o l ih =>
    intro s t s' h
    match o with
    | none =>
      rw [calcChildren_cons_none] at h
      have hres := ih s t s' h
      simpa [filterMap_id_cons_none] using hres
    | some c =>
      rw [calcChildren_cons_some_true] at h
      rcases Option.bind_eq_some.mp h with ⟨ts, hc, hrest⟩
      obtain ⟨tc, sc⟩ := ts
      rcases Option.map_eq_some'.mp hrest with ⟨rest, hl2, heq⟩
      obtain ⟨tl, s2⟩ := rest
      have ht : tc + tl = t := congrArg Prod.fst heq
      have hs : s2 = s' := congrArg Prod.snd heq
      subst ht; subst hs
      obtain ⟨hE1, hN1, hF1, hEl1, hD1, d, hpd, htc⟩ := IH c s tc sc hc
      have hEfun : elapOf sc = elapOf s := funext hE1
      obtain ⟨hE2, hN2, hF2, hEl2, hD2, hCS2⟩ := ih sc tl s2 hl2
      rw [hEfun] at hCS2 hD2
      have hmem : ∀ q : α,
          (q ∈ ((some c :: l).filterMap id).flatMap (visL env f))
            ↔ (q ∈ visL env f c ∨ q ∈ (l.filterMap id).flatMap (visL env f)) := by
        intro q
        rw [filterMap_id_cons_some, List.flatMap_cons, List.mem_append]
      refine ⟨?_, ?_, ?_, ?_, ?_, ?_⟩
      · intro q; rw [hE2 q, hE1 q]
      · intro q; rw [hN2 q, hN1 q]
      · intro q hq
        rw [hmem] at hq
        push_neg at hq
        rw [hF2 q hq.2, hF1 q hq.1]
      · intro q
        have hgE : getE sc q = getE s q := hE1 q
        by_cases h2 : q ∈ (l.filterMap id).flatMap (visL env f) ∧ env.links q = [] ∧ getE s q = 0
        · rw [hEl2 q, if_pos ⟨h2.1, h2.2.1, by rw [hgE]; exact h2.2.2⟩,
            if_pos ⟨(hmem q).mpr (Or.inr h2.1), h2.2.1, h2.2.2⟩]
        · have hs2q : (s2 q).elapsed = (sc q).elapsed := by
            rw [hEl2 q, if_neg]
            intro hcon
            exact h2 ⟨hcon.1, hcon.2.1, by rw [← hgE]; exact hcon.2.2⟩
          rw [hs2q, hEl1 q]
          by_cases h1 : q ∈ visL env f c ∧ env.links q = [] ∧ getE s q = 0
          · rw [if_pos h1, if_pos ⟨(hmem q).mpr (Or.inl h1.1), h1.2.1, h1.2.2⟩]
          · rw [if_neg h1, if_neg]
            intro hcon
            rcases (hmem q).mp hcon.1 with hm | hm
            · exact h1 ⟨hm, hcon.2⟩
            · exact h2 ⟨hm, hcon.2⟩
      · intro q hq
        by_cases h2 : q ∈ (l.filterMap id).flatMap (visL env f)
        · exact hD2 q h2
        · rcases (hmem q).mp hq with hm | hm
          · rcases hD1 q hm with ⟨v, hv, hdv⟩
            exact ⟨v, hv, by rw [hF2 q h2]; exact hdv⟩
          · exact absurd hm h2
      · rw [childSum_cons_some, hpd]
        simp only [Option.some_bind, hCS2, Option.map_some', htc, elapOf]

theorem calcREC_char (env : Env α) :
    ∀ (f : ℕ) (p : α) (s : State α) (r : ℤ) (s' : State α),
      calculateRecursiveElapsedChild env f true p s = some (r, s') →
      CharREC env f p s r s' := by
  intro f
  induction f with
  | zero =>
    intro p s r s' h
    rw [calcREC_zero] at h
    cases h
  | succ g ih =>
    intro p s r s' h
    rw [calcREC_succ] at h
    by_cases hl : env.links p = []
    · rw [if_pos hl] at h
      injection h with h'
      have hr : getE s p = r := congrArg Prod.fst h'
      have hs : setD (if getE s p = 0 then setE s p 0 else s) p 0 = s' :=
        congrArg Prod.snd h'
      subst hr
      subst hs
      have hvis : visL env (g + 1) p = [p] := by
        rw [visL_succ, resolvedChildren, hl]
        rfl
      refine ⟨?_, ?_, ?_, ?_, ?_, ?_⟩
      · intro q
        rw [getE_setD]
        by_cases h0 : getE s p = 0
        · rw [if_pos h0, getE_setE]
          by_cases hqp : q = p
          · rw [if_pos hqp, hqp]
            exact h0.symm
          · rw [if_neg hqp]
        · rw [if_neg h0]
      · intro q
        rw [node_size_setD]
        by_cases h0 : getE s p = 0
        · rw [if_pos h0, node_size_setE]
        · rw [if_neg h0]
      · intro q hq
        rw [hvis, List.mem_singleton] at hq
        rw [setD_apply, if_neg hq]
        by_cases h0 : getE s p = 0
        · rw [if_pos h0, setE_apply, if_neg hq]
        · rw [if_neg h0]
      · intro q
        rw [hvis, elapsed_setD]
        by_cases hq : q = p
        · subst hq
          by_cases h0 : getE s q = 0
          · rw [if_pos h0, elapsed_setE, if_pos rfl,
              if_pos ⟨List.mem_singleton_self q, hl, h0⟩]
          · rw [if_neg h0, if_neg fun hcon => h0 hcon.2.2]
        · have hnc : ¬ (q ∈ [p] ∧ env.links q = [] ∧ getE s q = 0) := by
            rw [List.mem_singleton]
            exact fun hcon => hq hcon.1
          rw [if_neg hnc]
          by_cases h0 : getE s p = 0
          · rw [if_pos h0, elapsed_setE, if_neg hq]
          · rw [if_neg h0]
      · intro q hq
        rw [hvis, List.mem_singleton] at hq
        subst hq
        refine ⟨0, by rw [pureDesc_succ, if_pos hl], ?_⟩
        rw [descendants_setD, if_pos rfl]
      · exact ⟨0, by rw [pureDesc_succ, if_pos hl], (add_zero _).symm⟩
    · rw [if_neg hl] at h
      rcases Option.map_eq_some'.mp h with ⟨ts, hts, heq⟩
      obtain ⟨t, s1⟩ := ts
      have hr : getE s p + t = r := congrArg Prod.fst heq
      have hs : setD s1 p t = s' := congrArg Prod.snd heq
      subst hr
      subst hs
      obtain ⟨hE1, hN1, hF1, hEl1, hD1, hCS⟩ :=
        calcChildren_char env g ih (env.links p) s t s1 hts
      have hvis : visL env (g + 1) p
          = p :: ((env.links p).filterMap id).flatMap (visL env g) := rfl
      refine ⟨?_, ?_, ?_, ?_, ?_, ?_⟩
      · intro q
        rw [getE_setD, hE1 q]
      · intro q
        rw [node_size_setD, hN1 q]
      · intro q hq
        rw [hvis] at hq
        have hqp : q ≠ p := fun hc => hq (hc ▸ List.mem_cons_self _ _)
        have hqL : q ∉ ((env.links p).filterMap id).flatMap (visL env g) :=
          fun hc => hq (List.mem_cons_of_mem _ hc)
        rw [setD_apply, if_neg hqp, hF1 q hqL]
      · intro q
        rw [hvis, elapsed_setD, hEl1 q]
        by_cases h1 : q ∈ ((env.links p).filterMap id).flatMap (visL env g)
            ∧ env.links q = [] ∧ getE s q = 0
        · rw [if_pos h1, if_pos ⟨List.mem_cons_of_mem _ h1.1, h1.2.1, h1.2.2⟩]
        · rw [if_neg h1, if_neg]
          intro hcon
          rcases List.mem_cons.mp hcon.1 with hm | hm
          · exact hl (hm ▸ hcon.2.1)
          · exact h1 ⟨hm, hcon.2⟩
      · intro q hq
        by_cases hqp : q = p
        · subst hqp
          refine ⟨t, ?_, ?_⟩
          · rw [pureDesc_succ, if_neg hl]
            exact hCS
          · simp
        · rw [hvis] at hq
          rcases List.mem_cons.mp hq with hm | hm
          · exact absurd hm hqp
          · rcases hD1 q hm with ⟨v, hv, hdv⟩
            refine ⟨v, pureDesc_mono (Nat.le_succ g) hv, ?_⟩
            rw [descendants_setD, if_neg hqp]
            exact hdv
      · refine ⟨t, ?_, rfl⟩
        rw [pureDesc_succ, if_neg hl]
        exact hCS

/- Characterization of the recursive elapsed pass. -/

theorem recTimeChildren_char (env : Env α) (st : TimeTreeSettings) (f : ℕ)
    (IH : ∀ (p : α) (s : State α) (le : ℤ) (s' : State α),
      calculateRecursiveElapsedTime env st f p s = some (le, s') →
        CharRecTime env st f p s le s') :
    ∀ (l : List (Option α)) (s : State α) (s' : State α),
      recTimeChildren
          (fun c s2 => (calculateRecursiveElapsedTime env st f c s2).map Prod.snd)
          l s = some s' →
      (∀ q, (s' q).elapsed =
        if q ∈ (l.filterMap id).flatMap (visL env f)
        then some (calculateElapsedTime env st q) else (s q).elapsed) ∧
      (∀ q, (s' q).descendants = (s q).descendants) ∧
      (∀ q, (s' q).node_size = (s q).node_size) := by
  intro l
  induction l with
  | nil =>
    intro s s' h
    rw [recTimeChildren_nil] at h
    injection h with h'
    subst h'
    refine ⟨fun q => ?_, fun q => rfl, fun q => rfl⟩
    simp
  | cons o l ih =>
    intro s s' h
    match o with
    | none =>
      rw [recTimeChildren_cons_none] at h
      have hres := ih s s' h
      simpa [filterMap_id_cons_none] using hres
    | some c =>
      rw [recTimeChildren_cons_some] at h
      rcases Option.bind_eq_some.mp h with ⟨s2, hc2, hrest⟩
      rcases Option.map_eq_some'.mp hc2 with ⟨ls, hc, hsnd⟩
      obtain ⟨lec, sc⟩ := ls
      cases hsnd
      obtain ⟨-, hEl1, hD1, hN1⟩ := IH c s lec sc hc
      obtain ⟨hEl2, hD2, hN2⟩ := ih sc s' hrest
      have hmem : ∀ q : α,
          (q ∈ ((some c :: l).filterMap id).flatMap (visL env f))
            ↔ (q ∈ visL env f c ∨ q ∈ (l.filterMap id).flatMap (visL env f)) := by
        intro q
        rw [filterMap_id_cons_some, List.flatMap_cons, List.mem_append]
      refine ⟨fun q => ?_, fun q => by rw [hD2 q, hD1 q], fun q => by rw [hN2 q, hN1 q]⟩
      rw [hEl2 q, hEl1 q]
      by_cases h2 : q ∈ (l.filterMap id).flatMap (visL env f)
      · rw [if_pos h2, if_pos ((hmem q).mpr (Or.inr h2))]
      · rw [if_neg h2]
        by_cases h1 : q ∈ visL env f c
        · rw [if_pos h1, if_pos ((hmem q).mpr (Or.inl h1))]
        · rw [if_neg h1, if_neg]
          intro hcon
          rcases (hmem q).mp hcon with hm | hm
          · exact h1 hm
          · exact h2 hm

theorem recTime_char (env : Env α) (st : TimeTreeSettings) :
    ∀ (f : ℕ) (p : α) (s : State α) (le : ℤ) (s' : State α),
      calculateRecursiveElapsedTime env st f p s = some (le, s') →
      CharRecTime env st f p s le s' := by
  intro f
  induction f with
  | zero =>
    intro p s le s' h
    rw [recTime_zero] at h
    cases h
  | succ g ih =>
    intro p s le s' h
    rw [recTime_succ] at h
    rcases Option.map_eq_some'.mp h with ⟨s1, hchild, heq⟩
    have hle : calculateElapsedTime env st p = le := congrArg Prod.fst heq
    have hs1 : s1 = s' := congrArg Prod.snd heq
    subst hs1
    subst hle
    obtain ⟨hEl, hD, hN⟩ := recTimeChildren_char env st g ih (env.links p) _ s1 hchild
    refine ⟨rfl, fun q => ?_, fun q => by rw [hD q, descendants_setE],
      fun q => by rw [hN q, node_size_setE]⟩
    rw [hEl q, visL_succ, resolvedChildren]
    by_cases h2 : q ∈ ((env.links p).filterMap id).flatMap (visL env g)
    · rw [if_pos h2, if_pos (List.mem_cons_of_mem _ h2)]
    · rw [if_neg h2, elapsed_setE]
      by_cases hqp : q = p
      · rw [if_pos hqp, if_pos (hqp ▸ List.mem_cons_self _ _)]
        rw [hqp]
      · rw [if_neg hqp, if_neg]
        intro hcon
        rcases List.mem_cons.mp hcon with hm | hm
        · exact hqp hm
        · exact h2 hm

/- The descendant collector: termination via the visited set and the
   exact multiplicity of each document in the returned list. -/

theorem gather_zero (env : Env α) (st : TimeTreeSettings) (file : α) (v : Finset String) :
    gatherDescendantFiles env st 0 file v = none := rfl

theorem gather_succ (env : Env α) (st : TimeTreeSettings) (f : ℕ) (file : α)
    (v : Finset String) :
    gatherDescendantFiles env st (f + 1) file v
      = if env.path file ∈ v then some ([], v)
        else gatherChildren env st (gatherDescendantFiles env st f) (env.links file)
          (insert (env.path file) v) := rfl

theorem gatherChildren_nil (env : Env α) (st : TimeTreeSettings) (recurse)
    (v : Finset String) :
    gatherChildren env st recurse [] v = some ([], v) := rfl

theorem gatherChildren_cons_none (env : Env α) (st : TimeTreeSettings) (recurse)
    (l : List (Option α)) (v : Finset String) :
    gatherChildren env st recurse (none :: l) v = gatherChildren env st recurse l v := rfl

theorem gatherChildren_cons_some (env : Env α) (st : TimeTreeSettings) (recurse)
    (c : α) (l : List (Option α)) (v : Finset String) :
    gatherChildren env st recurse (some c :: l) v
      = if scopePass st env c then
          (recurse c v).bind fun dv =>
            (gatherChildren env st recurse l dv.2).map fun rest =>
              (c :: (dv.1 ++ rest.1), rest.2)
        else gatherChildren env st recurse l v := rfl

theorem scopedList_nil (env : Env α) (st : TimeTreeSettings) :
    scopedList env st [] = [] := rfl

theorem scopedList_cons_none (env : Env α) (st : TimeTreeSettings) (l : List (Option α)) :
    scopedList env st (none :: l) = scopedList env st l := rfl

theorem scopedList_cons_some_true (env : Env α) (st : TimeTreeSettings) (c : α)
    (l : List (Option α)) (h : scopePass st env c = true) :
    scopedList env st (some c :: l) = c :: scopedList env st l := by
  simp [scopedList, h]

theorem scopedList_cons_some_false (env : Env α) (st : TimeTreeSettings) (c : α)
    (l : List (Option α)) (h : scopePass st env c = false) :
    scopedList env st (some c :: l) = scopedList env st l := by
  simp [scopedList, h]

theorem gatherChildren_total [Fintype α] (env : Env α) (st : TimeTreeSettings) (f : ℕ)
    (IH : ∀ (v : Finset String) (c : α),
      ((Finset.univ.image env.path) \ v).card < f →
      ∃ out v', gatherDescendantFiles env st f c v = some (out, v') ∧ v ⊆ v') :
    ∀ (l : List (Option α)) (v : Finset String),
      ((Finset.univ.image env.path) \ v).card < f →
      ∃ out v', gatherChildren env st (gatherDescendantFiles env st f) l v
        = some (out, v') ∧ v ⊆ v' := by
  intro l
  induction l with
  | nil =>
    intro v hv
    exact ⟨[], v, gatherChildren_nil env st _ v, Finset.Subset.refl v⟩
  | cons o l ih =>
    intro v hv
    match o with
    | none =>
      rw [gatherChildren_cons_none]
      exact ih v hv
    | some c =>
      rw [gatherChildren_cons_some]
      by_cases hsc : scopePass st env c = true
      · rw [if_pos hsc]
        rcases IH v c hv with ⟨ds, v1, hds, hv1⟩
        have hv1card : ((Finset.univ.image env.path) \ v1).card < f :=
          lt_of_le_of_lt
            (Finset.card_le_card
              (Finset.sdiff_subset_sdiff (Finset.Subset.refl _) hv1)) hv
        rcases ih v1 hv1card with ⟨rest, v2, hrest, hv2⟩
        refine ⟨c :: (ds ++ rest), v2, ?_, hv1.trans hv2⟩
        rw [hds]
        simp only [Option.some_bind, hrest, Option.map_some']
      · rw [if_neg hsc]
        exact ih v hv

theorem gather_total [Fintype α] (env : Env α) (st : TimeTreeSettings) :
    ∀ (f : ℕ) (v : Finset String) (file : α),
      ((Finset.univ.image env.path) \ v).card < f →
      ∃ out v', gatherDescendantFiles env st f file v = some (out, v') ∧ v ⊆ v' := by
  intro f
  induction f with
  | zero => intro v file hv; cases hv
  | succ g ih =>
    intro v file hv
    rw [gather_succ]
    by_cases hvis : env.path file ∈ v
    · rw [if_pos hvis]
      exact ⟨[], v, rfl, Finset.Subset.refl v⟩
    · rw [if_neg hvis]
      have hmem : env.path file ∈ (Finset.univ.image env.path) \ v :=
        Finset.mem_sdiff.mpr ⟨Finset.mem_image_of_mem _ (Finset.mem_univ _), hvis⟩
      have hcard : ((Finset.univ.image env.path) \ insert (env.path file) v).card < g := by
        have hsub : (Finset.univ.image env.path) \ insert (env.path file) v
            = ((Finset.univ.image env.path) \ v).erase (env.path file) :=
          Finset.sdiff_insert _ _ _
        rw [hsub, Finset.card_erase_of_mem hmem]
        have hpos : 0 < ((Finset.univ.image env.path) \ v).card :=
          Finset.card_pos.mpr ⟨_, hmem⟩
        omega
      rcases gatherChildren_total env st g ih (env.links file) (insert (env.path file) v)
          hcard with ⟨out, v', hout, hsub⟩
      exact ⟨out, v', hout, (Finset.subset_insert _ v).trans hsub⟩

theorem sum_indicator_split [Fintype α] (g : α → ℕ) (pathf : α → String)
    (v v1 v2 : Finset String) (h1 : v ⊆ v1) (h2 : v1 ⊆ v2) :
    (∑ p : α, if pathf p ∈ v2 ∧ pathf p ∉ v then g p else 0)
      = (∑ p : α, if pathf p ∈ v1 ∧ pathf p ∉ v then g p else 0)
        + (∑ p : α, if pathf p ∈ v2 ∧ pathf p ∉ v1 then g p else 0) := by
  rw [← Finset.sum_add_distrib]
  refine Finset.sum_congr rfl fun p _ => ?_
  by_cases hb : pathf p ∈ v1
  · by_cases ha : pathf p ∈ v
    · rw [if_neg (fun h => h.2 ha), if_neg (fun h => h.2 ha), if_neg (fun h => h.2 hb)]
    · rw [if_pos ⟨h2 hb, ha⟩, if_pos ⟨hb, ha⟩, if_neg (fun h => h.2 hb), add_zero]
  · have ha : pathf p ∉ v := fun h => hb (h1 h)
    by_cases hc : pathf p ∈ v2
    · rw [if_pos ⟨hc, ha⟩, if_neg (fun h => hb h.1), if_pos ⟨hc, hb⟩, zero_add]
    · rw [if_neg (fun h => hc h.1), if_neg (fun h => hb h.1), if_neg (fun h => hc h.1),
        add_zero]

theorem gatherChildren_count [Fintype α] (env : Env α) (st : TimeTreeSettings)
    (hInj : Function.Injective env.path) (f : ℕ)
    (IH : ∀ (v : Finset String) (c : α) (out : List α) (v' : Finset String),
      gatherDescendantFiles env st f c v = some (out, v') →
      v ⊆ v' ∧ ∀ d : α, out.count d
        = ∑ p : α, if env.path p ∈ v' ∧ env.path p ∉ v
            then (scopedResolved env st p).count d else 0) :
    ∀ (l : List (Option α)) (v : Finset String) (out : List α) (v' : Finset String),
      gatherChildren env st (gatherDescendantFiles env st f) l v = some (out, v') →
      v ⊆ v' ∧ ∀ d : α, out.count d
        = (scopedList env st l).count d
          + ∑ p : α, if env.path p ∈ v' ∧ env.path p ∉ v
              then (scopedResolved env st p).count d else 0 := by
  intro l
  induction l with
  | nil =>
    intro v out v' h
    rw [gatherChildren_nil] at h
    injection h with h'
    have hout : ([] : List α) = out := congrArg Prod.fst h'
    have hv : v = v' := congrArg Prod.snd h'
    subst hout; subst hv
    refine ⟨Finset.Subset.refl v, fun d => ?_⟩
    rw [scopedList_nil]
    simp
  | cons o l ih =>
    intro v out v' h
    match o with
    | none =>
      rw [gatherChildren_cons_none] at h
      rcases ih v out v' h with ⟨hsub, hcount⟩
      exact ⟨hsub, fun d => by rw [hcount d, scopedList_cons_none]⟩
    | some c =>
      rw [gatherChildren_cons_some] at h
      by_cases hsc : scopePass st env c = true
      · rw [if_pos hsc] at h
        rcases Option.bind_eq_some.mp h with ⟨dv, hdv, hrest⟩
        obtain ⟨ds, v1⟩ := dv
        rcases Option.map_eq_some'.mp hrest with ⟨rest, hrest', heq⟩
        obtain ⟨rs, v2⟩ := rest
        have hout : c :: (ds ++ rs) = out := congrArg Prod.fst heq
        have hv2 : v' = v2 := (congrArg Prod.snd heq).symm
        subst hout; subst hv2
        rcases IH v c ds v1 hdv with ⟨hsub1, hcnt1⟩
        rcases ih v1 rs v' hrest' with ⟨hsub2, hcnt2⟩
        refine ⟨hsub1.trans hsub2, fun d => ?_⟩
        rw [scopedList_cons_some_true env st c l hsc]
        rw [List.count_cons, List.count_cons, List.count_append, hcnt1 d, hcnt2 d,
          sum_indicator_split (fun p => (scopedResolved env st p).count d) env.path
            v v1 v' hsub1 hsub2]
        ring
      · rw [if_neg hsc] at h
        rcases ih v out v' h with ⟨hsub, hcount⟩
        refine ⟨hsub, fun d => ?_⟩
        rw [hcount d, scopedList_cons_some_false env st c l (by simpa using hsc)]

theorem gather_count [Fintype α] (env : Env α) (st : TimeTreeSettings)
    (hInj : Function.Injective env.path) :
    ∀ (f : ℕ) (v : Finset String) (file : α) (out : List α) (v' : Finset String),
      gatherDescendantFiles env st f file v = some (out, v') →
      v ⊆ v' ∧ ∀ d : α, out.count d
        = ∑ p : α, if env.path p ∈ v' ∧ env.path p ∉ v
            then (scopedResolved env st p).count d else 0 := by
  intro f
  induction f with
  | zero =>
    intro v file out v' h
    rw [gather_zero] at h
    cases h
  | succ g ih =>
    intro v file out v' h
    rw [gather_succ] at h
    by_cases hvis : env.path file ∈ v
    · rw [if_pos hvis] at h
      injection h with h'
      have hout : ([] : List α) = out := congrArg Prod.fst h'
      have hv : v = v' := congrArg Prod.snd h'
      subst hout; subst hv
      refine ⟨Finset.Subset.refl v, fun d => ?_⟩
      symm
      rw [List.count_nil]
      refine Finset.sum_eq_zero fun p _ => ?_
      rw [if_neg (fun hcon => hcon.2 hcon.1)]
    · rw [if_neg hvis] at h
      rcases gatherChildren_count env st hInj g ih (env.links file)
          (insert (env.path file) v) out v' h with ⟨hsub, hcount⟩
      have hfile : env.path file ∈ v' := hsub (Finset.mem_insert_self _ _)
      refine ⟨(Finset.subset_insert _ v).trans hsub, fun d => ?_⟩
      rw [hcount d]
      have hpt : ∀ p : α,
          (if env.path p ∈ v' ∧ env.path p ∉ v
            then (scopedResolved env st p).count d else 0)
          = (if env.path p ∈ v' ∧ env.path p ∉ insert (env.path file) v
              then (scopedResolved env st p).count d else 0)
            + (if p = file then (scopedResolved env st file).count d else 0) := by
        intro p
        by_cases hpf : p = file
        · subst hpf
          rw [if_pos rfl, if_pos ⟨hfile, hvis⟩,
            if_neg (fun hcon => hcon.2 (Finset.mem_insert_self _ _)), zero_add]
        · have hne : env.path p ≠ env.path file := fun hc => hpf (hInj hc)
          rw [if_neg hpf, add_zero]
          by_cases h1 : env.path p ∈ v' ∧ env.path p ∉ v
          · have h2 : env.path p ∉ insert (env.path file) v := by
              intro hc
              rcases Finset.mem_insert.mp hc with hc' | hc'
              · exact hne hc'
              · exact h1.2 hc'
            rw [if_pos h1, if_pos ⟨h1.1, h2⟩]
          · rw [if_neg h1, if_neg]
            intro hcon
            exact h1 ⟨hcon.1, fun hc => hcon.2 (Finset.mem_insert_of_mem hc)⟩
      rw [Finset.sum_congr rfl fun p _ => hpt p, Finset.sum_add_distrib,
        Finset.sum_ite_eq' Finset.univ file
          (fun _ => (scopedResolved env st file).count d)]
      rw [if_pos (Finset.mem_univ file)]
      have : (scopedList env st (env.links file)).count d
          = (scopedResolved env st file).count d := rfl
      omega

/- The node-size write loop and the interpolated diameter bounds. -/

theorem foldl_setN_char (v : α → ℝ) :
    ∀ (files : List α) (s : State α) (q : α),
      ((files.foldl (fun st' p => setN st' p (v p)) s) q).elapsed = (s q).elapsed ∧
      ((files.foldl (fun st' p => setN st' p (v p)) s) q).descendants = (s q).descendants ∧
      ((files.foldl (fun st' p => setN st' p (v p)) s) q).node_size
        = (if q ∈ files then some (v q) else (s q).node_size) := by
  intro files
  induction files with
  | nil =>
    intro s q
    refine ⟨rfl, rfl, ?_⟩
    rw [if_neg (List.not_mem_nil q), List.foldl_nil]
  | cons p files ih =>
    intro s q
    rcases ih (setN s p (v p)) q with ⟨hE, hD, hN⟩
    rw [List.foldl_cons]
    refine ⟨by rw [hE, elapsed_setN], by rw [hD, descendants_setN], ?_⟩
    rw [hN, node_size_setN]
    by_cases h2 : q ∈ files
    · rw [if_pos h2, if_pos (List.mem_cons_of_mem _ h2)]
    · rw [if_neg h2]
      by_cases hqp : q = p
      · rw [if_pos hqp, if_pos (hqp ▸ List.mem_cons_self _ _), hqp]
      · rw [if_neg hqp, if_neg]
        intro hcon
        rcases List.mem_cons.mp hcon with hm | hm
        · exact hqp hm
        · exact h2 hm

theorem applySizes_char (env : Env α) (st : TimeTreeSettings) (files : List α)
    (s : State α) (q : α) :
    (applySizes files s q).elapsed = (s q).elapsed ∧
    (applySizes files s q).descendants = (s q).descendants ∧
    (applySizes files s q).node_size
      = (if q ∈ files then
          some (node_sizeOf (minAccOf s files) (maxAccOf s files) (accOf s q))
        else (s q).node_size) := by
  exact foldl_setN_char
    (fun p => node_sizeOf (minAccOf s files) (maxAccOf s files) (accOf s p)) files s q

theorem foldl_min_le_init : ∀ (l : List ℤ) (b : ℤ), l.foldl min b ≤ b := by
  intro l
  induction l with
  | nil => intro b; exact le_refl b
  | cons a l ih =>
    intro b
    rw [List.foldl_cons]
    exact (ih (min b a)).trans (min_le_left b a)

theorem foldl_min_le_mem : ∀ (l : List ℤ) (b x : ℤ), x ∈ l → l.foldl min b ≤ x := by
  intro l
  induction l with
  | nil => intro b x hx; cases hx
  | cons a l ih =>
    intro b x hx
    rw [List.foldl_cons]
    rcases List.mem_cons.mp hx with hm | hm
    · exact hm ▸ (foldl_min_le_init l (min b a)).trans (min_le_right b a)
    · exact ih (min b a) x hm

theorem le_foldl_max_init : ∀ (l : List ℤ) (b : ℤ), b ≤ l.foldl max b := by
  intro l
  induction l with
  | nil => intro b; exact le_refl b
  | cons a l ih =>
    intro b
    rw [List.foldl_cons]
    exact (le_max_left b a).trans (ih (max b a))

theorem le_foldl_max_mem : ∀ (l : List ℤ) (b x : ℤ), x ∈ l → x ≤ l.foldl max b := by
  intro l
  induction l with
  | nil => intro b x hx; cases hx
  | cons a l ih =>
    intro b x hx
    rw [List.foldl_cons]
    rcases List.mem_cons.mp hx with hm | hm
    · exact hm ▸ (le_max_right b a).trans (le_foldl_max_init l (max b a))
    · exact ih (max b a) x hm

theorem minAccOf_le (s : State α) (files : List α) (q : α) (hq : q ∈ files) :
    minAccOf s files ≤ accOf s q :=
  foldl_min_le_mem _ _ _ (List.mem_map_of_mem (accOf s) hq)

theorem le_maxAccOf (s : State α) (files : List α) (q : α) (hq : q ∈ files) :
    accOf s q ≤ maxAccOf s files :=
  le_foldl_max_mem _ _ _ (List.mem_map_of_mem (accOf s) hq)

theorem areaOf_bounds {minAcc maxAcc acc : ℤ} (h1 : minAcc ≤ acc) (h2 : acc ≤ maxAcc)
    (hne : maxAcc ≠ minAcc) :
    (36 : ℚ) ≤ areaOf minAcc maxAcc acc ∧ areaOf minAcc maxAcc acc ≤ 10000 := by
  have hlt : minAcc < maxAcc := lt_of_le_of_ne (h1.trans h2) (Ne.symm hne)
  have hden : (0 : ℚ) < ((maxAcc - minAcc : ℤ) : ℚ) := by
    exact_mod_cast sub_pos.mpr hlt
  have hnum0 : (0 : ℚ) ≤ ((acc - minAcc : ℤ) : ℚ) := by
    exact_mod_cast sub_nonneg.mpr h1
  have hnd : ((acc - minAcc : ℤ) : ℚ) ≤ ((maxAcc - minAcc : ℤ) : ℚ) := by
    exact_mod_cast sub_le_sub_right h2 minAcc
  have hr0 : (0 : ℚ) ≤ ((acc - minAcc : ℤ) : ℚ) / ((maxAcc - minAcc : ℤ) : ℚ) :=
    div_nonneg hnum0 hden.le
  have hr1 : ((acc - minAcc : ℤ) : ℚ) / ((maxAcc - minAcc : ℤ) : ℚ) ≤ 1 :=
    (div_le_one hden).mpr hnd
  have hAmin : A_min = (36 : ℚ) := by norm_num [A_min, min_d]
  have hAmax : A_max = (10000 : ℚ) := by norm_num [A_max, max_d]
  constructor
  · rw [areaOf, hAmin, hAmax]
    nlinarith
  · rw [areaOf, hAmin, hAmax]
    nlinarith

theorem node_sizeOf_bounds {minAcc maxAcc acc : ℤ} (h1 : minAcc ≤ acc)
    (h2 : acc ≤ maxAcc) :
    (6 : ℝ) ≤ node_sizeOf minAcc maxAcc acc ∧ node_sizeOf minAcc maxAcc acc ≤ 100 := by
  rw [node_sizeOf]
  by_cases hne : maxAcc = minAcc
  · rw [if_pos hne]
    by_cases h0 : acc = 0
    · rw [if_pos h0]
      norm_num [min_d]
    · rw [if_neg h0]
      norm_num [max_d]
  · rw [if_neg hne]
    rcases areaOf_bounds h1 h2 hne with ⟨hlo, hhi⟩
    have hlo' : (36 : ℝ) ≤ ((areaOf minAcc maxAcc acc : ℚ) : ℝ) := by exact_mod_cast hlo
    have hhi' : ((areaOf minAcc maxAcc acc : ℚ) : ℝ) ≤ 10000 := by exact_mod_cast hhi
    constructor
    · have h6 : (6 : ℝ) = Real.sqrt 36 := by
        rw [show (36 : ℝ) = 6 ^ 2 by norm_num, Real.sqrt_sq (by norm_num : (0:ℝ) ≤ 6)]
      rw [h6]
      exact Real.sqrt_le_sqrt hlo'
    · have h100 : (100 : ℝ) = Real.sqrt 10000 := by
        rw [show (10000 : ℝ) = 100 ^ 2 by norm_num,
          Real.sqrt_sq (by norm_num : (0:ℝ) ≤ 100)]
      rw [h100]
      exact Real.sqrt_le_sqrt hhi'

theorem node_sizeOf_at_max {minAcc maxAcc : ℤ} (hne : maxAcc ≠ minAcc) :
    node_sizeOf minAcc maxAcc maxAcc = 100 := by
  rw [node_sizeOf, if_neg hne]
  have hden : ((maxAcc - minAcc : ℤ) : ℚ) ≠ 0 := by
    exact_mod_cast sub_ne_zero.mpr hne
  have hA : areaOf minAcc maxAcc maxAcc = (10000 : ℚ) := by
    rw [areaOf, div_self hden]
    norm_num [A_min, A_max, min_d, max_d]
  rw [hA]
  rw [show (((10000 : ℚ) : ℝ)) = 100 ^ 2 by norm_num]
  exact Real.sqrt_sq (by norm_num : (0:ℝ) ≤ 100)

/- The parent resolver: the fold keeps the first candidate attaining the
   minimum creation time. -/

theorem oldestFold_nil (env : Env α) (b : α) : oldestFold env b [] = b := rfl

theorem oldestFold_cons (env : Env α) (b a : α) (l : List α) :
    oldestFold env b (a :: l)
      = oldestFold env (if env.ctime a < env.ctime b then a else b) l := rfl

theorem oldestFold_self_cons (env : Env α) (c : α) (cs : List α) :
    oldestFold env c (c :: cs) = oldestFold env c cs := by
  rw [oldestFold_cons, if_neg (lt_irrefl _)]

theorem oldestFold_spec (env : Env α) :
    ∀ (l : List α) (b : α),
      (∀ q ∈ b :: l, env.ctime (oldestFold env b l) ≤ env.ctime q) ∧
      (b :: l).find? (fun q => decide (env.ctime q ≤ env.ctime (oldestFold env b l)))
        = some (oldestFold env b l) := by
  intro l
  induction l with
  | nil =>
    intro b
    constructor
    · intro q hq
      rw [List.mem_singleton] at hq
      rw [hq, oldestFold_nil]
    · exact List.find?_cons_of_pos _ (by rw [oldestFold_nil]; simp)
  | cons a l ih =>
    intro b
    by_cases hab : env.ctime a < env.ctime b
    · have hr : oldestFold env b (a :: l) = oldestFold env a l := by
        rw [oldestFold_cons, if_pos hab]
      rcases ih a with ⟨hmin, hfind⟩
      rw [hr]
      have hrb : env.ctime (oldestFold env a l) < env.ctime b :=
        lt_of_le_of_lt (hmin a (List.mem_cons_self a l)) hab
      constructor
      · intro q hq
        rcases List.mem_cons.mp hq with hm | hm
        · rw [hm]
          exact le_of_lt hrb
        · exact hmin q hm
      · rw [List.find?_cons_of_neg _ (by simpa using not_le.mpr hrb)]
        exact hfind
    · have hr : oldestFold env b (a :: l) = oldestFold env b l := by
        rw [oldestFold_cons, if_neg hab]
      rcases ih b with ⟨hmin, hfind⟩
      rw [hr]
      have hba : env.ctime b ≤ env.ctime a := not_lt.mp hab
      constructor
      · intro q hq
        rcases List.mem_cons.mp hq with hm | hm
        · rw [hm]
          exact hmin b (List.mem_cons_self b l)
        · rcases List.mem_cons.mp hm with hm' | hm'
          · rw [hm']
            exact (hmin b (List.mem_cons_self b l)).trans hba
          · exact hmin q (List.mem_cons_of_mem b hm')
      · by_cases hpb : env.ctime b ≤ env.ctime (oldestFold env b l)
        · have hfb : List.find?
              (fun q => decide (env.ctime q ≤ env.ctime (oldestFold env b l))) (b :: l)
              = some b := List.find?_cons_of_pos _ (by simpa using hpb)
          rw [hfb] at hfind
          injection hfind with hrb
          rw [← hrb]
          exact List.find?_cons_of_pos _ (by simpa using hpb)
        · have hrlt : env.ctime (oldestFold env b l) < env.ctime b := not_le.mp hpb
          have hpa : ¬ env.ctime a ≤ env.ctime (oldestFold env b l) :=
            not_le.mpr (lt_of_lt_of_le hrlt hba)
          rw [List.find?_cons_of_neg _ (by simpa using hpb),
            List.find?_cons_of_neg _ (by simpa using hpa)]
          rw [List.find?_cons_of_neg _ (by simpa using hpb)] at hfind
          exact hfind

/- Acyclicity of the reachable subgraph yields enough fuel for the
   unguarded recursions. -/

theorem reachSet_ssubset [Fintype α] {env : Env α} {root p c : α}
    (hacy : AcyclicFrom env root) (hp : ReachesD env root p) (hc : edgeStep env p c) :
    {q | ReachesD env c q} ⊂ {q | ReachesD env p q} := by
  have hsub : {q | ReachesD env c q} ⊆ {q | ReachesD env p q} := by
    intro q hq
    exact Relation.ReflTransGen.head hc hq
  refine (Set.ssubset_iff_of_subset hsub).mpr ⟨p, Relation.ReflTransGen.refl, ?_⟩
  intro hcp
  exact hacy p hp c hc hcp

theorem walkOk_of_acyclic [Fintype α] (env : Env α) (root : α)
    (hacy : AcyclicFrom env root) :
    ∀ (n : ℕ) (p : α), ReachesD env root p → {q | ReachesD env p q}.ncard ≤ n →
      walkOk env (n + 1) p := by
  intro n
  induction n using Nat.strong_induction_on with
  | _ n ih =>
    intro p hp hcard
    intro c hc
    have hedge : edgeStep env p c := hc
    have hss := reachSet_ssubset hacy hp hedge
    have hlt : {q | ReachesD env c q}.ncard < {q | ReachesD env p q}.ncard :=
      Set.ncard_lt_ncard hss (Set.toFinite _)
    have hcn : {q | ReachesD env c q}.ncard < n := lt_of_lt_of_le hlt hcard
    have hwc := ih ({q | ReachesD env c q}.ncard) hcn c (hp.tail hedge) (le_refl _)
    exact walkOk_mono (Nat.succ_le_of_lt hcn) hwc

theorem walkOk_of_acyclic_card [Fintype α] (env : Env α) (root : α)
    (hacy : AcyclicFrom env root) : walkOk env (Fintype.card α + 1) root := by
  apply walkOk_of_acyclic env root hacy (Fintype.card α) root Relation.ReflTransGen.refl
  calc {q | ReachesD env root q}.ncard
      ≤ (Set.univ : Set α).ncard := Set.ncard_le_ncard (Set.subset_univ _) (Set.toFinite _)
    _ = Fintype.card α := by rw [Set.ncard_univ, Nat.card_eq_fintype_card]

/- The two-document link cycle defeats every fuel. -/

theorem cyc_not_walkOk : ∀ (f : ℕ) (b : Bool), ¬ walkOk cycLinksEnv f b := by
  intro f
  induction f with
  | zero => intro b h; exact h
  | succ g ih =>
    intro b h
    refine ih (!b) (h (!b) ?_)
    cases b <;> decide

/- The ascendant walk: termination along a finite parent chain, and
   non-termination on a backlink cycle. -/

theorem calcREC_one_false_isSome (env : Env α) (p : α) (s : State α) :
    (calculateRecursiveElapsedChild env 1 false p s).isSome = true :=
  calcREC_false_isSome env 0 p s

theorem commAsc_zero (env : Env α) (st : TimeTreeSettings) (file : α) (s : State α) :
    communicateAscendants env st 0 file s = none := rfl

theorem commAsc_succ_none {env : Env α} {st : TimeTreeSettings} {file : α} {f : ℕ}
    {s : State α} (h : getParentFile env st file = none) :
    communicateAscendants env st (f + 1) file s = some s := by
  simp [communicateAscendants, h]

theorem commAsc_succ_some {env : Env α} {st : TimeTreeSettings} {file parent : α}
    {f : ℕ} {s : State α} (h : getParentFile env st file = some parent) :
    communicateAscendants env st (f + 1) file s
      = (calculateRecursiveElapsedChild env 1 false parent s).bind fun ts =>
          communicateAscendants env st f parent ts.2 := by
  simp [communicateAscendants, h]

theorem commAsc_terminates (env : Env α) (st : TimeTreeSettings) :
    ∀ (n : ℕ) (doc : α) (s : State α),
      parentChainEnds env st n doc →
      (communicateAscendants env st (n + 1) doc s).isSome = true := by
  intro n
  induction n with
  | zero =>
    intro doc s h
    rw [commAsc_succ_none h]
    rfl
  | succ m ih =>
    intro doc s h
    rcases h with ⟨p, hp, hrest⟩
    rw [commAsc_succ_some hp]
    rcases Option.isSome_iff_exists.mp (calcREC_one_false_isSome env p s) with ⟨ts, hts⟩
    rw [hts, Option.some_bind]
    exact ih p ts.2 hrest

theorem commAsc_cycle_none :
    ∀ (f : ℕ) (b : Bool) (s : State Bool),
      communicateAscendants cycParentEnv stDefault f b s = none := by
  intro f
  induction f with
  | zero => intro b s; rfl
  | succ g ih =>
    intro b s
    have hpar : getParentFile cycParentEnv stDefault b = some (!b) := by
      cases b <;> decide
    rw [commAsc_succ_some hpar]
    rcases Option.isSome_iff_exists.mp
      (calcREC_one_false_isSome cycParentEnv (!b) s) with ⟨ts, hts⟩
    rw [hts, Option.some_bind]
    exact ih (!b) ts.2

/- The front-matter block scanner. -/

theorem findMarker_cons (c : Char) (cs : List Char) :
    findMarker (c :: cs)
      = if headMatches yamlMarker (c :: cs) then some ([], (c :: cs).drop 4)
        else (findMarker cs).map fun pr => (c :: pr.1, pr.2) := rfl

theorem headMatches_self_append : ∀ (p r : List Char), headMatches p (p ++ r) = true := by
  intro p
  induction p with
  | nil => intro r; rfl
  | cons a p ih =>
    intro r
    show (decide (a = a) && headMatches p (p ++ r)) = true
    rw [ih r]
    simp

theorem headMatches_append_of_le :
    ∀ (p l r : List Char), p.length ≤ l.length →
      headMatches p (l ++ r) = headMatches p l := by
  intro p
  induction p with
  | nil => intro l r _; rfl
  | cons a p ih =>
    intro l r hlen
    match l with
    | [] => exact absurd hlen (Nat.not_succ_le_zero _)
    | b :: l' =>
      show (decide (a = b) && headMatches p (l' ++ r)) = (decide (a = b) && headMatches p l')
      rw [ih l' r (Nat.succ_le_succ_iff.mp hlen)]

theorem findMarker_extend :
    ∀ (X R : List Char),
      findMarker (X ++ yamlMarker) = some (X, []) →
      findMarker (X ++ (yamlMarker ++ R)) = some (X, R) := by
  intro X
  induction X with
  | nil =>
    intro R _
    rw [List.nil_append]
    rw [show yamlMarker ++ R = '\n' :: ('-' :: '-' :: '-' :: R) from rfl]
    rw [findMarker_cons, if_pos]
    · rfl
    · exact headMatches_self_append yamlMarker R
  | cons a X ih =>
    intro R h
    rw [List.cons_append, findMarker_cons] at h
    by_cases hb : headMatches yamlMarker (a :: (X ++ yamlMarker)) = true
    · rw [if_pos hb] at h
      injection h with h'
      have hcon : ([] : List Char) = a :: X := congrArg Prod.fst h'
      cases hcon
    · rw [if_neg hb] at h
      rcases Option.map_eq_some'.mp h with ⟨pr, hpr, heq⟩
      obtain ⟨pa, pb⟩ := pr
      have h1 : a :: pa = a :: X := congrArg Prod.fst heq
      have h1' : pa = X := by injection h1
      have h2 : pb = [] := congrArg Prod.snd heq
      rw [h1', h2] at hpr
      have hext := ih R hpr
      have hcond : headMatches yamlMarker (a :: (X ++ (yamlMarker ++ R))) = false := by
        have hlen : yamlMarker.length ≤ (a :: (X ++ yamlMarker)).length := by
          simp [yamlMarker]
        have hmm : headMatches yamlMarker ((a :: (X ++ yamlMarker)) ++ R)
            = headMatches yamlMarker (a :: (X ++ yamlMarker)) :=
          headMatches_append_of_le yamlMarker _ R hlen
        rw [show a :: (X ++ (yamlMarker ++ R)) = (a :: (X ++ yamlMarker)) ++ R by simp]
        rw [hmm]
        exact Bool.eq_false_iff.mpr hb
      rw [List.cons_append, findMarker_cons, hcond]
      simp only [Bool.false_eq_true, if_false, hext, Option.map_some']

theorem yamlMatch_header (z : List Char) :
    yamlMatch (yamlHeader ++ z) = findMarker z := by
  rw [yamlMatch, if_pos (headMatches_self_append yamlHeader z)]
  rfl

/- Remaining support for the claims about the descendants pass. -/

theorem self_mem_visL {env : Env α} {f : ℕ} {p : α} (h : 0 < f) : p ∈ visL env f p := by
  match f, h with
  | g + 1, _ => exact List.mem_cons_self _ _

theorem walkOk_pos {env : Env α} {f : ℕ} {p : α} (h : walkOk env f p) : 0 < f := by
  match f, h with
  | g + 1, _ => exact Nat.succ_pos g

theorem visL_children_subset {env : Env α} :
    ∀ {f : ℕ} {p : α}, walkOk env f p → ∀ {q : α}, q ∈ visL env f p →
      ∀ c ∈ resolvedChildren env q, c ∈ visL env f p := by
  intro f
  induction f with
  | zero =>
    intro p _ q hq
    cases hq
  | succ g ih =>
    intro p hw q hq c hc
    rw [visL_succ] at hq ⊢
    rcases List.mem_cons.mp hq with hm | hm
    · subst hm
      have hwc : walkOk env g c := hw c hc
      refine List.mem_cons_of_mem _ (List.mem_flatMap.mpr ⟨c, hc, ?_⟩)
      exact self_mem_visL (walkOk_pos hwc)
    · rcases List.mem_flatMap.mp hm with ⟨c0, hc0, hqc0⟩
      have hwc0 : walkOk env g c0 := hw c0 hc0
      exact List.mem_cons_of_mem _
        (List.mem_flatMap.mpr ⟨c0, hc0, ih hwc0 hqc0 c hc⟩)

theorem childSum_eq_sum {E : α → ℤ} {pd : α → Option ℤ} :
    ∀ {l : List (Option α)} {v : ℤ}, childSum E pd l = some v →
      (∀ c ∈ l.filterMap id, ∃ dc, pd c = some dc) ∧
      v = ((l.filterMap id).map (fun c => E c + (pd c).getD 0)).sum := by
  intro l
  induction l with
  | nil =>
    intro v hv
    injection hv with hv'
    subst hv'
    exact ⟨fun c hc => absurd hc (List.not_mem_nil c), rfl⟩
  | cons o l ih =>
    intro v hv
    match o with
    | none =>
      rcases ih hv with ⟨hall, hsum⟩
      exact ⟨by rw [filterMap_id_cons_none]; exact hall,
        by rw [filterMap_id_cons_none]; exact hsum⟩
    | some c =>
      rw [childSum_cons_some] at hv
      rcases Option.bind_eq_some.mp hv with ⟨d, hd, hrest⟩
      rcases Option.map_eq_some'.mp hrest with ⟨rest, hrest', hval⟩
      rcases ih hrest' with ⟨hall, hsum⟩
      constructor
      · intro c' hc'
        rw [filterMap_id_cons_some] at hc'
        rcases List.mem_cons.mp hc' with hm | hm
        · exact ⟨d, hm ▸ hd⟩
        · exact hall c' hm
      · rw [filterMap_id_cons_some, List.map_cons, List.sum_cons, ← hval, hsum, hd]
        rfl

theorem childSum_no_resolved {E : α → ℤ} {pd : α → Option ℤ} :
    ∀ {l : List (Option α)}, l.filterMap id = [] → childSum E pd l = some 0 := by
  intro l
  induction l with
  | nil => intro _; rfl
  | cons o l ih =>
    intro h
    match o with
    | none =>
      rw [filterMap_id_cons_none] at h
      exact ih h
    | some c =>
      rw [filterMap_id_cons_some] at h
      cases h

/-- Claim C1 (aggregate sum): after a successful full recursive recompute
    (`calculateRecursiveElapsedChild` with `recursive = true`) from a root
    whose descendant traversal visits the non-leaf document `D`, the stored
    `descendants` attribute of `D` equals the sum, over the resolved
    children of `D`, of each child's stored `elapsed + descendants`. -/
theorem C1_aggregate_sum (env : Env α) (f : ℕ) (root : α) (s : State α)
    (h : (calculateRecursiveElapsedChild env f true root s).isSome = true)
    (D : α) (hD : D ∈ visL env f root) (hNL : env.links D ≠ []) :
    ((((calculateRecursiveElapsedChild env f true root s).get h).2) D).descendants
      = some (((resolvedChildren env D).map
          (fun c => getE ((calculateRecursiveElapsedChild env f true root s).get h).2 c
            + getD ((calculateRecursiveElapsedChild env f true root s).get h).2 c)).sum) := by
  rcases Option.isSome_iff_exists.mp h with ⟨rs, heq⟩
  obtain ⟨r, s'⟩ := rs
  simp only [heq, Option.get_some]
  have hw : walkOk env f root := (calcREC_isSome_iff env f root s).mp (by rw [heq]; rfl)
  obtain ⟨hE, hN, hF, hEl, hDesc, -⟩ := calcREC_char env f root s r s' heq
  rcases hDesc D hD with ⟨vD, hpdD, hdD⟩
  match f, hD, hpdD with
  | g + 1, hD, hpdD =>
    rw [pureDesc_succ, if_neg hNL] at hpdD
    rcases childSum_eq_sum hpdD with ⟨hall, hsum⟩
    rw [hdD]
    congr 1
    rw [hsum, resolvedChildren]
    apply congrArg List.sum
    apply List.map_congr_left
    intro c hc
    have hcvis : c ∈ visL env (g + 1) root :=
      visL_children_subset hw hD c hc
    rcases hDesc c hcvis with ⟨vc, hpc, hdc⟩
    rcases hall c hc with ⟨dc, hdcp⟩
    have hvc : vc = dc := by
      have hmono := pureDesc_mono (Nat.le_succ g) hdcp
      rw [hmono] at hpc
      injection hpc with hvd
      exact hvd.symm
    rw [hdcp]
    have hgd : getD s' c = vc := by
      rw [getD, hdc]
      rfl
    have hge : getE s' c = getE s c := hE c
    rw [hgd, hge, hvc]
    rfl

/-- Claim C2 (leaf consistency): after a successful full recursive
    recompute that visits a document `D` with no resolvable outgoing
    links, the stored `descendants` of `D` is 0; its `elapsed` attribute
    is unchanged whenever it read nonzero before the pass, and the pass
    rewrites the `elapsed` attribute only when it already read 0. -/
theorem C2_leaf_consistency (env : Env α) (f : ℕ) (root : α) (s : State α)
    (h : (calculateRecursiveElapsedChild env f true root s).isSome = true)
    (D : α) (hD : D ∈ visL env f root) (hleaf : resolvedChildren env D = []) :
    ((((calculateRecursiveElapsedChild env f true root s).get h).2) D).descendants = some 0
    ∧ (getE s D ≠ 0 →
        ((((calculateRecursiveElapsedChild env f true root s).get h).2) D).elapsed
          = (s D).elapsed)
    ∧ (((((calculateRecursiveElapsedChild env f true root s).get h).2) D).elapsed
          ≠ (s D).elapsed → getE s D = 0) := by
  rcases Option.isSome_iff_exists.mp h with ⟨rs, heq⟩
  obtain ⟨r, s'⟩ := rs
  simp only [heq, Option.get_some]
  obtain ⟨hE, hN, hF, hEl, hDesc, -⟩ := calcREC_char env f root s r s' heq
  refine ⟨?_, ?_, ?_⟩
  · rcases hDesc D hD with ⟨vD, hpdD, hdD⟩
    match f, hD, hpdD with
    | g + 1, hD, hpdD =>
      rw [pureDesc_succ] at hpdD
      by_cases hl : env.links D = []
      · rw [if_pos hl] at hpdD
        injection hpdD with hv
        rw [hdD, ← hv]
      · rw [if_neg hl] at hpdD
        rw [childSum_no_resolved hleaf] at hpdD
        injection hpdD with hv
        rw [hdD, ← hv]
  · intro hne
    rw [hEl D, if_neg]
    intro hcon
    exact hne hcon.2.2
  · intro hch
    rw [hEl D] at hch
    by_cases hcond : D ∈ visL env f root ∧ env.links D = [] ∧ getE s D = 0
    · exact hcond.2.2
    · rw [if_neg hcond] at hch
      exact absurd rfl hch

/-- Witness for C1: in `pairEnv` (document 0 linking to the leaf 1,
    elapsed 1 and 3 stored) the recompute from 0 succeeds, 0 is visited
    and non-leaf, and the theorem applies. -/
theorem C1_aggregate_sum_witness :
    (calculateRecursiveElapsedChild pairEnv 2 true 0 pairS).isSome = true
    ∧ (0 : Fin 2) ∈ visL pairEnv 2 0
    ∧ pairEnv.links 0 ≠ []
    ∧ ((((calculateRecursiveElapsedChild pairEnv 2 true 0 pairS).get (by decide)).2) 0).descendants
      = some (((resolvedChildren pairEnv 0).map
          (fun c => getE ((calculateRecursiveElapsedChild pairEnv 2 true 0 pairS).get
              (by decide)).2 c
            + getD ((calculateRecursiveElapsedChild pairEnv 2 true 0 pairS).get
              (by decide)).2 c)).sum) :=
  ⟨by decide, by decide, by decide,
    C1_aggregate_sum pairEnv 2 0 pairS (by decide) 0 (by decide) (by decide)⟩

/-- Witness for C2: in `pairEnv`, document 1 is a visited leaf with
    nonzero elapsed 3. -/
theorem C2_leaf_consistency_witness :
    (calculateRecursiveElapsedChild pairEnv 2 true 0 pairS).isSome = true
    ∧ (1 : Fin 2) ∈ visL pairEnv 2 0
    ∧ resolvedChildren pairEnv 1 = []
    ∧ (((((calculateRecursiveElapsedChild pairEnv 2 true 0 pairS).get (by decide)).2) 1).descendants
        = some 0
      ∧ (getE pairS 1 ≠ 0 →
          ((((calculateRecursiveElapsedChild pairEnv 2 true 0 pairS).get (by decide)).2) 1).elapsed
            = (pairS 1).elapsed)
      ∧ (((((calculateRecursiveElapsedChild pairEnv 2 true 0 pairS).get (by decide)).2) 1).elapsed
            ≠ (pairS 1).elapsed → getE pairS 1 = 0)) :=
  ⟨by decide, by decide, by decide,
    C2_leaf_consistency pairEnv 2 0 pairS (by decide) 1 (by decide) (by decide)⟩

/-- Counterexample for C3 as stated: in the diamond graph (0 links to 1
    and 2, both linking to 3), the collector returns document 3 twice —
    once per explored in-edge — although 3 is reachable, so "every
    reachable document appears exactly once in the returned list" fails. -/
theorem C3_gather_counterexample :
    ((gatherDescendantFiles diamondEnv stDefault 5 0 ∅).map fun g => g.1.count 3)
      = some 2 := by
  decide

/-- Claim C3 as amended: on any finite link graph — cycles and diamonds
    included — `gatherDescendantFiles` terminates (any fuel exceeding the
    number of unvisited paths suffices), and each document `d` appears in
    the returned list exactly once per resolved, in-scope link to `d` from
    a document expanded during the traversal (the visited set prevents
    re-expansion, not re-inclusion). -/
theorem C3_gather_amended {β : Type} [DecidableEq β] [Fintype β] (env : Env β)
    (st : TimeTreeSettings) (hInj : Function.Injective env.path) :
    (∀ (f : ℕ) (v : Finset String) (file : β),
      ((Finset.univ.image env.path) \ v).card < f →
      (gatherDescendantFiles env st f file v).isSome = true)
    ∧ (∀ (f : ℕ) (v : Finset String) (file : β)
        (h : (gatherDescendantFiles env st f file v).isSome = true) (d : β),
        ((gatherDescendantFiles env st f file v).get h).1.count d
          = ∑ p : β, if env.path p ∈ ((gatherDescendantFiles env st f file v).get h).2
                ∧ env.path p ∉ v
              then (scopedResolved env st p).count d else 0) := by
  constructor
  · intro f v file hv
    rcases gather_total env st f v file hv with ⟨out, v', hout, -⟩
    rw [hout]
    rfl
  · intro f v file h d
    rcases Option.isSome_iff_exists.mp h with ⟨g, hout⟩
    obtain ⟨out, v'⟩ := g
    simp only [hout, Option.get_some]
    exact (gather_count env st hInj f v file out v' hout).2 d

/-- Witness for the amended C3: on the two-document link cycle, the
    collector terminates and the count characterization gives each of the
    two documents exactly once. -/
theorem C3_gather_amended_witness :
    Function.Injective cycLinksEnv.path
    ∧ ((Finset.univ.image cycLinksEnv.path) \ (∅ : Finset String)).card < 3
    ∧ (gatherDescendantFiles cycLinksEnv stDefault 3 false ∅).isSome = true
    ∧ (((gatherDescendantFiles cycLinksEnv stDefault 3 false ∅).get (by decide)).1.count false
        = ∑ p : Bool,
            if cycLinksEnv.path p
                  ∈ ((gatherDescendantFiles cycLinksEnv stDefault 3 false ∅).get (by decide)).2
                ∧ cycLinksEnv.path p ∉ (∅ : Finset String)
            then (scopedResolved cycLinksEnv stDefault p).count false else 0)
    ∧ ((gatherDescendantFiles cycLinksEnv stDefault 3 false ∅).map fun g =>
        (g.1.count false, g.1.count true)) = some (1, 1) :=
  ⟨by decide, by decide,
    (C3_gather_amended cycLinksEnv stDefault (by decide)).1 3 ∅ false (by decide),
    (C3_gather_amended cycLinksEnv stDefault (by decide)).2 3 ∅ false (by decide) false,
    by decide⟩

/-- Claim C4 (size bounds): for a collected document set, every computed
    `node_size` lies in [6, 100]; in the non-degenerate case the document
    attaining the maximum `acc = elapsed + descendants` receives exactly
    100 (the interpolation `node_sizeOf` is the area-linear map between
    36 and 10000 followed by the square root). -/
theorem C4_node_size_bounds (env : Env α) (st : TimeTreeSettings) (f : ℕ)
    (root : α) (s : State α) (ds : List α)
    (hg : (gatherDescendantFiles env st f root ∅).map Prod.fst = some ds)
    (q : α) (hq : q ∈ root :: ds) :
    updateNodeSizeFromFile env st f root s = some (applySizes (root :: ds) s)
    ∧ (applySizes (root :: ds) s q).node_size
        = some (node_sizeOf (minAccOf s (root :: ds)) (maxAccOf s (root :: ds)) (accOf s q))
    ∧ (6 : ℝ) ≤ node_sizeOf (minAccOf s (root :: ds)) (maxAccOf s (root :: ds)) (accOf s q)
    ∧ node_sizeOf (minAccOf s (root :: ds)) (maxAccOf s (root :: ds)) (accOf s q) ≤ 100
    ∧ (maxAccOf s (root :: ds) ≠ minAccOf s (root :: ds) →
        accOf s q = maxAccOf s (root :: ds) →
        node_sizeOf (minAccOf s (root :: ds)) (maxAccOf s (root :: ds)) (accOf s q)
          = 100) := by
  have h1 : minAccOf s (root :: ds) ≤ accOf s q := minAccOf_le s (root :: ds) q hq
  have h2 : accOf s q ≤ maxAccOf s (root :: ds) := le_maxAccOf s (root :: ds) q hq
  rcases node_sizeOf_bounds h1 h2 with ⟨hlo, hhi⟩
  refine ⟨?_, ?_, hlo, hhi, ?_⟩
  · rcases Option.map_eq_some'.mp hg with ⟨g, hg', hfst⟩
    rw [updateNodeSizeFromFile, hg', Option.map_some', hfst]
  · rcases applySizes_char env st (root :: ds) s q with ⟨-, -, hN⟩
    rw [hN, if_pos hq]
  · intro hne hmax
    rw [hmax]
    exact node_sizeOf_at_max hne

/-- Witness for C4: in `pairEnv` with stored accs 10 (root) and 2 (leaf),
    the root attains the maximum and receives node size 100. -/
theorem C4_node_size_bounds_witness :
    (gatherDescendantFiles pairEnv stDefault 3 0 ∅).map Prod.fst = some [1]
    ∧ (0 : Fin 2) ∈ [0, 1]
    ∧ maxAccOf pairS4 [0, 1] ≠ minAccOf pairS4 [0, 1]
    ∧ accOf pairS4 0 = maxAccOf pairS4 [0, 1]
    ∧ (6 : ℝ) ≤ node_sizeOf (minAccOf pairS4 [0, 1]) (maxAccOf pairS4 [0, 1]) (accOf pairS4 0)
    ∧ node_sizeOf (minAccOf pairS4 [0, 1]) (maxAccOf pairS4 [0, 1]) (accOf pairS4 0) ≤ 100
    ∧ node_sizeOf (minAccOf pairS4 [0, 1]) (maxAccOf pairS4 [0, 1]) (accOf pairS4 0) = 100 := by
  have hmain := C4_node_size_bounds pairEnv stDefault 3 0 pairS4 [1]
    (by decide) 0 (by decide)
  exact ⟨by decide, by decide, by decide, by decide, hmain.2.2.1, hmain.2.2.2.1,
    hmain.2.2.2.2 (by decide) (by decide)⟩

/-- Claim C5: the ascendant walk terminates whenever the canonical-parent
    chain from the argument document is finite (it stops at the first
    document with no resolvable parent), and on a backlink cycle — where
    each of two documents is the canonical parent of the other — the walk
    returns no result at any fuel: the source recursion, which has no
    visited set or hop bound, does not terminate there. -/
theorem C5_ascendant_walk :
    (∀ {β : Type} [DecidableEq β] (env : Env β) (st : TimeTreeSettings)
        (n : ℕ) (doc : β) (s : State β),
      parentChainEnds env st n doc →
      (communicateAscendants env st (n + 1) doc s).isSome = true)
    ∧ (getParentFile cycParentEnv stDefault false = some true
      ∧ getParentFile cycParentEnv stDefault true = some false
      ∧ ∀ (fuel : ℕ) (s : State Bool),
          communicateAscendants cycParentEnv stDefault fuel false s = none) := by
  refine ⟨?_, by decide, by decide, ?_⟩
  · intro β _ env st n doc s h
    exact commAsc_terminates env st n doc s h
  · intro fuel s
    exact commAsc_cycle_none fuel false s

/-- Witness for C5: the single parentless document ends its chain in zero
    hops and the walk terminates immediately. -/
theorem C5_ascendant_walk_witness :
    parentChainEnds soloEnv soloSt 0 ()
    ∧ (communicateAscendants soloEnv soloSt 1 () s0).isSome = true :=
  ⟨show getParentFile soloEnv soloSt () = none by decide,
    C5_ascendant_walk.1 soloEnv soloSt 0 () s0
      (show getParentFile soloEnv soloSt () = none by decide)⟩

/-- Claim C6: `getParentFile` returns `none` exactly when no backlink
    source survives resolution and the scope filter; a returned parent has
    the minimum creation time among the candidates, and is the first
    candidate in iteration order whose creation time is at most the
    result's — creation-time ties therefore resolve to the candidate
    encountered first. -/
theorem C6_parent_resolution (env : Env α) (st : TimeTreeSettings) (file : α) :
    (getParentFile env st file = none ↔ candidatesOf env st file = [])
    ∧ ∀ p, getParentFile env st file = some p →
        ((candidatesOf env st file).all
            (fun q => decide (env.ctime p ≤ env.ctime q)) = true
        ∧ (candidatesOf env st file).find?
            (fun q => decide (env.ctime q ≤ env.ctime p)) = some p) := by
  cases hc : candidatesOf env st file with
  | nil =>
    constructor
    · simp [getParentFile, hc]
    · intro p hp
      rw [getParentFile, hc] at hp
      cases hp
  | cons c cs =>
    constructor
    · simp [getParentFile, hc]
    · intro p hp
      rw [getParentFile, hc] at hp
      injection hp with hp'
      rw [oldestFold_self_cons] at hp'
      rcases oldestFold_spec env cs c with ⟨hmin, hfind⟩
      subst hp'
      constructor
      · rw [List.all_eq_true]
        intro q hq
        exact decide_eq_true (hmin q hq)
      · exact hfind

/-- Witness for C6: backlink candidates with creation times 5, 2, 2 — the
    minimum is tied and the first candidate attaining it (document 2) is
    returned. -/
theorem C6_parent_resolution_witness :
    getParentFile tieEnv stDefault 0 = some 2
    ∧ ((candidatesOf tieEnv stDefault 0).all
        (fun q => decide (tieEnv.ctime 2 ≤ tieEnv.ctime q)) = true
      ∧ (candidatesOf tieEnv stDefault 0).find?
          (fun q => decide (tieEnv.ctime q ≤ tieEnv.ctime 2)) = some 2) :=
  ⟨by decide, (C6_parent_resolution tieEnv stDefault 0).2 2 (by decide)⟩

/-- Claim C7 (idempotence): a successful full recompute
    (`computeTimeTree`: recursive elapsed pass, recursive descendants
    pass, node-size pass) run again on its own output, with no
    intervening edits to documents, trackers or settings, succeeds and
    reproduces exactly the same stored attributes. -/
theorem C7_recompute_idempotent (env : Env α) (st : TimeTreeSettings) (f : ℕ)
    (s : State α) (h : (computeTimeTree env st f s).isSome = true) :
    computeTimeTree env st f ((computeTimeTree env st f s).get h)
      = some ((computeTimeTree env st f s).get h) := by
  rcases Option.isSome_iff_exists.mp h with ⟨s1, heq⟩
  simp only [heq, Option.get_some]
  by_cases hroot : st.rootNotePath = ""
  · rw [computeTimeTree, if_pos hroot]
  · rw [computeTimeTree, if_neg hroot] at heq ⊢
    cases hbp : env.byPath st.rootNotePath with
    | none => rfl
    | some root =>
      rw [hbp] at heq
      change (calculateRecursiveElapsedTime env st f root s).bind
          (fun ls => (calculateRecursiveElapsedChild env f true root ls.2).bind
            fun ts => updateNodeSizeFromFile env st f root ts.2) = some s1 at heq
      change (calculateRecursiveElapsedTime env st f root s1).bind
          (fun ls => (calculateRecursiveElapsedChild env f true root ls.2).bind
            fun ts => updateNodeSizeFromFile env st f root ts.2) = some s1
      rcases Option.bind_eq_some.mp heq with ⟨ls, h1, hrest⟩
      obtain ⟨le1, sA⟩ := ls
      rcases Option.bind_eq_some.mp hrest with ⟨ts, h2, h3⟩
      obtain ⟨t2, sB⟩ := ts
      rw [updateNodeSizeFromFile] at h3
      rcases Option.map_eq_some'.mp h3 with ⟨g, hg, hs1⟩
      obtain ⟨ds, vis⟩ := g
      change calculateRecursiveElapsedChild env f true root sA = some (t2, sB) at h2
      change applySizes (root :: ds) sB = s1 at hs1
      obtain ⟨-, hElA, hDA, hNA⟩ := recTime_char env st f root s le1 sA h1
      obtain ⟨hEB, hNB, hFB, hElB, hDescB, -⟩ := calcREC_char env f root sA t2 sB h2
      have hw : walkOk env f root :=
        (recTime_isSome_iff env st f root s).mp (by rw [h1]; rfl)
      rcases Option.isSome_iff_exists.mp
        ((recTime_isSome_iff env st f root s1).mpr hw) with ⟨ls', h1'⟩
      obtain ⟨le1', sA'⟩ := ls'
      rcases Option.isSome_iff_exists.mp
        ((calcREC_isSome_iff env f root sA').mpr hw) with ⟨ts', h2'⟩
      obtain ⟨t2', sB'⟩ := ts'
      obtain ⟨-, hElA', hDA', hNA'⟩ := recTime_char env st f root s1 le1' sA' h1'
      obtain ⟨hEB', hNB', hFB', hElB', hDescB', -⟩ := calcREC_char env f root sA' t2' sB' h2'
      rw [h1', Option.some_bind, h2', Option.some_bind, updateNodeSizeFromFile, hg,
        Option.map_some']
      have hsA'elapsed : ∀ q, (sA' q).elapsed = (sA q).elapsed := by
        intro q
        rw [hElA' q, hElA q]
        by_cases hv : q ∈ visL env f root
        · rw [if_pos hv, if_pos hv]
        · rw [if_neg hv, if_neg hv, ← hs1]
          rcases applySizes_char env st (root :: ds) sB q with ⟨hae, -, -⟩
          rw [hae, hElB q, if_neg (fun hcon => hv hcon.1), hElA q, if_neg hv]
      have hgE : ∀ q, getE sA' q = getE sA q := by
        intro q
        show ((sA' q).elapsed).getD 0 = ((sA q).elapsed).getD 0
        rw [hsA'elapsed q]
      have hEfun : elapOf sA' = elapOf sA := by
        funext q
        show ((sA' q).elapsed).getD 0 = ((sA q).elapsed).getD 0
        rw [hsA'elapsed q]
      have hsB'elapsed : ∀ q, (sB' q).elapsed = (sB q).elapsed := by
        intro q
        rw [hElB' q, hElB q]
        by_cases hcond : q ∈ visL env f root ∧ env.links q = [] ∧ getE sA q = 0
        · rw [if_pos ⟨hcond.1, hcond.2.1, by rw [hgE q]; exact hcond.2.2⟩, if_pos hcond]
        · rw [if_neg (fun hcon => hcond ⟨hcon.1, hcon.2.1, by rw [← hgE q]; exact hcon.2.2⟩),
            if_neg hcond, hsA'elapsed q]
      have hsB'desc : ∀ q, (sB' q).descendants = (sB q).descendants := by
        intro q
        by_cases hv : q ∈ visL env f root
        · rcases hDescB q hv with ⟨v, hpv, hdv⟩
          rcases hDescB' q hv with ⟨v', hpv', hdv'⟩
          rw [hEfun, hpv] at hpv'
          injection hpv' with hvv
          rw [hdv, hdv', hvv]
        · rw [hFB' q hv, hDA' q, ← hs1]
          exact (applySizes_char env st (root :: ds) sB q).2.1
      have hsB'ns : ∀ q, (sB' q).node_size = (s1 q).node_size := by
        intro q
        rw [hNB' q, hNA' q]
      have hacc : ∀ q, accOf sB' q = accOf sB q := by
        intro q
        show ((sB' q).elapsed).getD 0 + ((sB' q).descendants).getD 0
          = ((sB q).elapsed).getD 0 + ((sB q).descendants).getD 0
        rw [hsB'elapsed q, hsB'desc q]
      have hmap : (root :: ds).map (accOf sB') = (root :: ds).map (accOf sB) :=
        List.map_congr_left fun q _ => hacc q
      have hmin : minAccOf sB' (root :: ds) = minAccOf sB (root :: ds) := by
        rw [minAccOf, minAccOf, hmap]
      have hmax : maxAccOf sB' (root :: ds) = maxAccOf sB (root :: ds) := by
        rw [maxAccOf, maxAccOf, hmap]
      congr 1
      rw [← hs1]
      funext q
      rcases applySizes_char env st (root :: ds) sB' q with ⟨hae', had', han'⟩
      rcases applySizes_char env st (root :: ds) sB q with ⟨hae, had, han⟩
      apply FM.ext
      · rw [hae', hae, hsB'elapsed q]
      · rw [had', had, hsB'desc q]
      · rw [han', han]
        by_cases hqf : q ∈ root :: ds
        · rw [if_pos hqf, if_pos hqf, hmin, hmax, hacc q]
        · rw [if_neg hqf, if_neg hqf, hsB'ns q, ← hs1, han, if_neg hqf]

/-- Witness for C7: the one-document vault (root "r", no links, no
    trackers) admits a successful recompute, and rerunning it on the
    output is the identity. -/
theorem C7_recompute_idempotent_witness :
    (computeTimeTree soloEnv soloSt 2 (s0 : State Unit)).isSome = true
    ∧ computeTimeTree soloEnv soloSt 2
        ((computeTimeTree soloEnv soloSt 2 (s0 : State Unit)).get (by decide))
      = some ((computeTimeTree soloEnv soloSt 2 (s0 : State Unit)).get (by decide)) :=
  ⟨by decide, C7_recompute_idempotent soloEnv soloSt 2 s0 (by decide)⟩

/-- Claim C8: when a document's metadata block is unparseable
    (`parseY` rejects the matched block, modelling a `YAML.parse` throw),
    `updateProperty` takes the caught-error branch — a visible failure
    notice — and returns before `vault.modify`: no new content is
    produced and the document is unchanged. -/
theorem C8_unparseable_aborts {A : Type} (parseY : List Char → Option A)
    (strY : A → List Char) (emptyFM : A) (updater : A → A)
    (content block rest : List Char)
    (hm : yamlMatch content = some (block, rest))
    (hp : parseY block = none) :
    updateProperty parseY strY emptyFM updater content = none
    ∧ updatePropertyRun parseY strY emptyFM updater content = content := by
  have h1 : updateProperty parseY strY emptyFM updater content = none := by
    simp only [updateProperty, hm, hp]
  refine ⟨h1, ?_⟩
  rw [updatePropertyRun, h1]
  rfl

/-- Witness for C8: a parser that rejects every block aborts the update
    of `badContent` without a write. -/
theorem C8_unparseable_aborts_witness :
    yamlMatch badContent = some ("x".toList, "\nbody".toList)
    ∧ (fun _ : List Char => (none : Option Unit)) "x".toList = none
    ∧ updateProperty (fun _ : List Char => (none : Option Unit))
        (fun _ => []) () id badContent = none
    ∧ updatePropertyRun (fun _ : List Char => (none : Option Unit))
        (fun _ => []) () id badContent = badContent :=
  ⟨by decide, rfl,
    (C8_unparseable_aborts (fun _ => none) (fun _ => []) () id badContent
      "x".toList "\nbody".toList (by decide) rfl).1,
    (C8_unparseable_aborts (fun _ => none) (fun _ => []) () id badContent
      "x".toList "\nbody".toList (by decide) rfl).2⟩

/-- Counterexample for C9 as stated: with an identity round-trip
    serializer and the identity updater — which touches no attribute at
    all — updating `noNLContent` (body directly after the block, no
    separating newline) succeeds but changes the document: the source
    inserts a newline before the body, so "only the attributes the
    callback changes differ between the old and new serialized content"
    is false. -/
theorem C9_frame_counterexample :
    (updateProperty rawParse rawStr [] id noNLContent).isSome = true
    ∧ updatePropertyRun rawParse rawStr [] id noNLContent ≠ noNLContent :=
  ⟨by decide, by decide⟩

/-- Claim C9 as amended: for an update whose block parses and whose
    serializer emits a newline-terminated block `X ++ '\n'` with no
    earlier block terminator inside and which round-trips the updated
    map, the new content is exactly the header, the re-serialized block,
    the closing dashes, and then the original remainder of the document —
    byte-for-byte when that remainder already started with a newline
    (otherwise one newline is inserted).  Untouched metadata keys are
    preserved at value level (the metadata text itself is re-serialized,
    not byte-preserved): any key the updater does not change reads back
    identically. -/
theorem C9_frame_amended {A K : Type} (parseY : List Char → Option A)
    (strY : A → List Char) (emptyFM : A) (updater : A → A)
    (getK : A → K → Option ℚ)
    (content block rest X : List Char) (fm : A) (k : K)
    (hm : yamlMatch content = some (block, rest))
    (hp : parseY block = some fm)
    (hs : strY (updater fm) = X ++ ['\n'])
    (hgood : findMarker (X ++ yamlMarker) = some (X, []))
    (hrt : parseY X = some (updater fm))
    (hk : getK (updater fm) k = getK fm k) :
    updateProperty parseY strY emptyFM updater content
      = some ((yamlHeader ++ strY (updater fm) ++ ['-', '-', '-'])
          ++ (if rest.head? = some '\n' then rest else '\n' :: rest))
    ∧ (rest.head? = some '\n' →
        updateProperty parseY strY emptyFM updater content
          = some ((yamlHeader ++ strY (updater fm) ++ ['-', '-', '-']) ++ rest))
    ∧ getPropertyOf parseY getK
        ((yamlHeader ++ strY (updater fm) ++ ['-', '-', '-'])
          ++ (if rest.head? = some '\n' then rest else '\n' :: rest)) k
      = getPropertyOf parseY getK content k := by
  have h1 : updateProperty parseY strY emptyFM updater content
      = some ((yamlHeader ++ strY (updater fm) ++ ['-', '-', '-'])
          ++ (if rest.head? = some '\n' then rest else '\n' :: rest)) := by
    simp only [updateProperty, hm, hp]
  refine ⟨h1, ?_, ?_⟩
  · intro hnl
    rw [h1, if_pos hnl]
  · have hcontent2 : (yamlHeader ++ strY (updater fm) ++ ['-', '-', '-'])
        ++ (if rest.head? = some '\n' then rest else '\n' :: rest)
        = yamlHeader
            ++ (X ++ (yamlMarker
              ++ (if rest.head? = some '\n' then rest else '\n' :: rest))) := by
      rw [hs]
      simp [yamlMarker]
    rw [hcontent2]
    have hfm2 := findMarker_extend X
      (if rest.head? = some '\n' then rest else '\n' :: rest) hgood
    simp only [getPropertyOf, yamlMatch_header, hfm2, hrt, hm, hp, hk]

/-- Witness for C9 (amended) at `nlContent`, whose body already starts
    with a newline: the raw round-trip serializer reproduces the block
    and the body suffix byte-for-byte, and the single key reads back
    unchanged. -/
theorem C9_frame_amended_witness :
    yamlMatch nlContent = some ("a: 1".toList, "\nbody".toList)
    ∧ rawParse "a: 1".toList = some (id "a: 1".toList)
    ∧ rawStr (id "a: 1".toList) = "a: 1".toList ++ ['\n']
    ∧ findMarker ("a: 1".toList ++ yamlMarker) = some ("a: 1".toList, [])
    ∧ updateProperty rawParse rawStr [] id nlContent
        = some ((yamlHeader ++ rawStr (id "a: 1".toList) ++ ['-', '-', '-'])
            ++ "\nbody".toList)
    ∧ getPropertyOf rawParse (fun _ _ => some 1)
        ((yamlHeader ++ rawStr (id "a: 1".toList) ++ ['-', '-', '-'])
          ++ (if "\nbody".toList.head? = some '\n'
              then "\nbody".toList else '\n' :: "\nbody".toList)) ()
      = getPropertyOf rawParse (fun _ _ => some 1) nlContent () :=
  ⟨by decide, rfl, by decide, by decide,
    (C9_frame_amended rawParse rawStr [] id (fun _ _ => some 1) nlContent
      "a: 1".toList "\nbody".toList "a: 1".toList "a: 1".toList ()
      (by decide) rfl (by decide) (by decide) rfl rfl).2.1 (by decide),
    (C9_frame_amended rawParse rawStr [] id (fun _ _ => some 1) nlContent
      "a: 1".toList "\nbody".toList "a: 1".toList "a: 1".toList ()
      (by decide) rfl (by decide) (by decide) rfl rfl).2.2⟩

/-- The single-document environment has no resolved links at all, so the
    subgraph reachable from its document is trivially acyclic. -/
theorem soloAcyclic : AcyclicFrom soloEnv () := by
  intro p _ c hc
  cases hc

/-- Claim C10: the downward recursive passes
    (`calculateRecursiveElapsedTime` and `calculateRecursiveElapsedChild`
    with `recursive = true`) carry no visited set: when the subgraph
    reachable from the argument is acyclic, fuel `card + 1` makes both
    succeed from any store; on the two-document link cycle both return
    `none` at every fuel — the unguarded source recursions never
    terminate there; and in the diamond graph the shared leaf (elapsed 1)
    is recomputed and summed once per path, so the root's returned total
    is 2. -/
theorem C10_unguarded_recursion :
    (∀ {β : Type} [DecidableEq β] [Fintype β] (env : Env β) (root : β),
      AcyclicFrom env root →
      ∀ (st : TimeTreeSettings) (s : State β),
        (calculateRecursiveElapsedTime env st (Fintype.card β + 1) root s).isSome = true
        ∧ (calculateRecursiveElapsedChild env (Fintype.card β + 1) true root s).isSome
            = true)
    ∧ (∀ (fuel : ℕ) (st : TimeTreeSettings) (s : State Bool),
        calculateRecursiveElapsedTime cycLinksEnv st fuel false s = none
        ∧ calculateRecursiveElapsedChild cycLinksEnv fuel true false s = none)
    ∧ ((calculateRecursiveElapsedChild diamondEnv 4 true 0 diamondS).map Prod.fst
        = some 2) := by
  refine ⟨?_, ?_, by decide⟩
  · intro β _ _ env root hacy st s
    have hw := walkOk_of_acyclic_card env root hacy
    exact ⟨(recTime_isSome_iff env st _ root s).mpr hw,
      (calcREC_isSome_iff env _ root s).mpr hw⟩
  · intro fuel st s
    have hnw := cyc_not_walkOk fuel false
    constructor
    · cases hres : calculateRecursiveElapsedTime cycLinksEnv st fuel false s with
      | none => rfl
      | some x =>
        exact absurd ((recTime_isSome_iff cycLinksEnv st fuel false s).mp
          (by rw [hres]; rfl)) hnw
    · cases hres : calculateRecursiveElapsedChild cycLinksEnv fuel true false s with
      | none => rfl
      | some x =>
        exact absurd ((calcREC_isSome_iff cycLinksEnv fuel false s).mp
          (by rw [hres]; rfl)) hnw

/-- Witness for C10: the single-document environment is acyclic from its
    document, and both passes succeed there at fuel `card Unit + 1`. -/
theorem C10_unguarded_recursion_witness :
    AcyclicFrom soloEnv ()
    ∧ ((calculateRecursiveElapsedTime soloEnv soloSt (Fintype.card Unit + 1) ()
          (s0 : State Unit)).isSome = true
      ∧ (calculateRecursiveElapsedChild soloEnv (Fintype.card Unit + 1) true ()
          (s0 : State Unit)).isSome = true) :=
  ⟨soloAcyclic, C10_unguarded_recursion.1 soloEnv () soloAcyclic soloSt s0⟩

end TimeTree
